import Mathlib

/-!
Verification of the stream-splicer library (`src/lib.rs` and
`src/string_inserter.rs`) of the `insert_multiple` repository.

The byte-level engine `Inserter::execute` is embedded shallowly.  A byte
producer (any implementor of `Read`) is modelled as a *script*: a list of
read events, each event being a transient `Interrupted` error, a
non-retryable I/O error of some kind, or the delivery of a nonempty chunk
of bytes.  A `read` call with a capacity `cap` (the free space of the copy
buffer, possibly limited by a `take` adapter) consumes the first event; a
chunk longer than `cap` is delivered in part, the remainder staying at the
head of the script exactly as the unread tail of an in-memory slice stays
in the reader.  End of stream is reached when the script is exhausted.

The three copy loops of `Inserter::execute` (the gap loop bounded by
`take(remaining)`, the insertion drain loop, and the tail drain loop) are
embedded as fuel-indexed structural recursions; the fuel passed by the
top-level `execute` is computed from the script so that it is always
sufficient, keeping every definition executable.

The `BTreeMap<usize, _>` that holds the schedule is modelled as a
strictly-sorted association list with insertion by key replacement
(`btInsert`).  The sink (`Write`) is modelled as an in-memory accumulator
list, mirroring the always-successful `Cursor<&mut Vec<u8>>` sink used by
the string adapter; `write_all` is an append.

`StringInserter::execute` is embedded on top of the byte engine, with Rust
strings modelled by their UTF-8 byte lists and `String::from_utf8`
modelled by a validator `utf8Valid` that mirrors the UTF-8 acceptance
rules of the Rust standard library.
-/

/-- Size of the internal copy buffer, `BUFFER_SIZE` in `src/lib.rs`. -/
def BUFFER_SIZE : Nat := 1024

/-- One scripted read event of a byte producer. -/
inductive Ev where
  /-- the read fails with `ErrorKind::Interrupted` -/
  | int : Ev
  /-- the read fails with a non-retryable error of kind `e` -/
  | fail : Nat → Ev
  /-- the read delivers bytes from the nonempty chunk `b :: bs` -/
  | chunk : Nat → List Nat → Ev
deriving DecidableEq, Repr

/-- A producer (a `Read` implementor) is modelled as a script of events. -/
abbrev Script := List Ev

/-- Result of one `read` call, mirroring `io::Result<usize>` together with
the `Ok(0)` end-of-stream convention. -/
inductive ReadRes where
  | eof : ReadRes
  | got : List Nat → ReadRes
  | interrupted : ReadRes
  | failed : Nat → ReadRes
deriving DecidableEq, Repr

/-- Model of one `read` call with buffer capacity `cap` against a script.
A chunk is delivered up to `cap` bytes; an undelivered remainder stays at
the head of the script, as the unread tail of a slice stays in the
reader. -/
def readS (cap : Nat) : Script → ReadRes × Script
  | [] => (ReadRes.eof, [])
  | Ev.int :: rest => (ReadRes.interrupted, rest)
  | Ev.fail e :: rest => (ReadRes.failed e, rest)
  | Ev.chunk b bs :: rest =>
    (ReadRes.got ((b :: bs).take cap),
      match (b :: bs).drop cap with
      | [] => rest
      | r :: rs => Ev.chunk r rs :: rest)

/-- Bytes of one event (empty for error events). -/
def evBytes : Ev → List Nat
  | Ev.chunk b bs => b :: bs
  | _ => []

/-- All bytes a script would deliver if drained to end of stream. -/
def scriptFlat (s : Script) : List Nat := (s.map evBytes).flatten

/-- Total byte count of a script. -/
def scriptBytes (s : Script) : Nat := (scriptFlat s).length

/-- A script with no non-retryable error event. -/
def failFree (s : Script) : Bool :=
  s.all fun e => match e with
    | Ev.fail _ => false
    | _ => true

/-- Fuel that strictly bounds the number of loop iterations a drain of the
script can take: every iteration consumes an event or at least one byte. -/
def scriptFuel (s : Script) : Nat := scriptBytes s + s.length + 1

/-- The gap loop of `Inserter::execute` (`while input_index < insert_idx`):
copies bytes from the origin through a `take(remaining)` view until the
insertion index is reached, the origin reports end of stream, or a
non-retryable error occurs.  Returns the error if any, the rest of the
origin script, the new `input_index`, and the sink contents. -/
def gapLoop : Nat → Nat → Nat → Script → List Nat →
    Option Nat × Script × Nat × List Nat
  | 0, _, idx, s, sink => (none, s, idx, sink)
  | fuel + 1, insertIdx, idx, s, sink =>
    if idx < insertIdx then
      match readS (min BUFFER_SIZE (insertIdx - idx)) s with
      | (ReadRes.eof, s') => (none, s', idx, sink)
      | (ReadRes.got bytes, s') =>
        gapLoop fuel insertIdx (idx + bytes.length) s' (sink ++ bytes)
      | (ReadRes.interrupted, s') => gapLoop fuel insertIdx idx s' sink
      | (ReadRes.failed e, s') => (some e, s', idx, sink)
    else (none, s, idx, sink)

/-- The drain loops of `Inserter::execute`: the insertion drain loop and
the final tail drain loop, which copy a producer to the sink until end of
stream or a non-retryable error. -/
def drainLoop : Nat → Script → List Nat → Option Nat × List Nat
  | 0, _, sink => (none, sink)
  | fuel + 1, s, sink =>
    match readS BUFFER_SIZE s with
    | (ReadRes.eof, _) => (none, sink)
    | (ReadRes.got bytes, s') => drainLoop fuel s' (sink ++ bytes)
    | (ReadRes.interrupted, s') => drainLoop fuel s' sink
    | (ReadRes.failed e, _) => (some e, sink)

/-- The `for (&insert_idx, mut to_insert) in self.insertions.iter_mut()`
loop of `Inserter::execute`: for each scheduled insertion, fill the gap
from the origin and then drain the insertion producer. -/
def executeLoop : List (Nat × Script) → Script → Nat → List Nat →
    Option Nat × Script × Nat × List Nat
  | [], origin, idx, sink => (none, origin, idx, sink)
  | (insertIdx, toInsert) :: rest, origin, idx, sink =>
    match gapLoop ((insertIdx - idx) + origin.length + 1) insertIdx idx origin sink with
    | (some e, o', idx', sink') => (some e, o', idx', sink')
    | (none, o', idx', sink') =>
      match drainLoop (scriptFuel toInsert) toInsert sink' with
      | (some e, sink'') => (some e, o', idx', sink'')
      | (none, sink'') => executeLoop rest o' idx' sink''

/-- Model of the `BTreeMap<usize, V>` holding the schedule: a
strictly-sorted association list; `btInsert` replaces the value when the
key is already present, as `BTreeMap::insert` does. -/
def btInsert (k : Nat) (v : α) : List (Nat × α) → List (Nat × α)
  | [] => [(k, v)]
  | (k', v') :: rest =>
    if k < k' then (k, v) :: (k', v') :: rest
    else if k = k' then (k, v) :: rest
    else (k', v') :: btInsert k v rest

/-- The schedule obtained by registering the pairs of `l` in order into an
empty map. -/
def buildSchedule (l : List (Nat × α)) : List (Nat × α) :=
  l.foldl (fun m p => btInsert p.1 p.2 m) []

/-- Model of the `Inserter` struct: origin producer, schedule (the
`BTreeMap` contents in ascending key order), and the sink contents already
written to the target. -/
structure Inserter where
  origin : Script
  insertions : List (Nat × Script)
  target : List Nat
deriving Repr

/-- Model of `Inserter::new`. -/
def Inserter.new (origin : Script) (target : List Nat) : Inserter :=
  ⟨origin, [], target⟩

/-- Model of `Inserter::insert`: registers a producer at a byte position
by `BTreeMap::insert`. -/
def Inserter.insert (self : Inserter) (position : Nat) (source : Script) : Inserter :=
  ⟨self.origin, btInsert position source self.insertions, self.target⟩

/-- Model of `Inserter::execute`: runs the schedule loop, then the tail
drain of the origin.  Returns the error, if any, and the final sink
contents. -/
def Inserter.execute (self : Inserter) : Option Nat × List Nat :=
  match executeLoop self.insertions self.origin 0 self.target with
  | (some e, _, _, sink) => (some e, sink)
  | (none, o', _, sink) =>
    match drainLoop (scriptFuel o') o' sink with
    | (some e, sink') => (some e, sink')
    | (none, sink') => (none, sink')

/-- Script of an in-memory byte slice (`&[u8]` as `Read`): delivers all of
its bytes, never interrupts, never fails. -/
def sliceScript : List Nat → Script
  | [] => []
  | b :: bs => [Ev.chunk b bs]

/-- An `Inserter` over in-memory slices, built by chained `insert` calls
in registration order, with an initially empty sink. -/
def inserterOf (ob : List Nat) (regs : List (Nat × List Nat)) : Inserter :=
  regs.foldl (fun i p => i.insert p.1 (sliceScript p.2)) (Inserter.new (sliceScript ob) [])

/-- Running `Inserter::execute` over in-memory byte lists. -/
def runBytes (ob : List Nat) (regs : List (Nat × List Nat)) : Option Nat × List Nat :=
  (inserterOf ob regs).execute

/-- The bytes emitted while walking the schedule (before the tail drain),
together with the final forwarding position of the origin.  For each
scheduled offset, the origin bytes from the previous forwarding position
up to the offset are emitted, then the insertion contents; insertion bytes
do not advance the forwarding position. -/
def splicePart (ob : List Nat) : Nat → List (Nat × List Nat) → List Nat × Nat
  | idx, [] => ([], idx)
  | idx, (o, ins) :: rest =>
    let g := (ob.drop idx).take (o - idx)
    let r := splicePart ob (idx + g.length) rest
    (g ++ ins ++ r.1, r.2)

/-- The full spliced output: schedule walk followed by the remaining
origin bytes. -/
def spliceGo (ob : List Nat) (idx : Nat) (sched : List (Nat × List Nat)) : List Nat :=
  (splicePart ob idx sched).1 ++ ob.drop (splicePart ob idx sched).2

/-- The sink contents of a run whose origin delivers the bytes `ob` and
then fails: the schedule walk proceeds normally as long as each scheduled
offset is at most `ob.length` (such a gap is filled without reading past
the delivered bytes); the first offset beyond `ob.length` — or the final
tail drain, when every offset is within `ob.length` — reaches the failing
read after forwarding the not-yet-forwarded delivered bytes, and nothing
further is emitted. -/
def spliceFail (ob : List Nat) : Nat → List (Nat × List Nat) → List Nat
  | idx, [] => ob.drop idx
  | idx, (o, ins) :: rest =>
    if o ≤ ob.length then
      (ob.drop idx).take (o - idx) ++ ins ++
        spliceFail ob (idx + ((ob.drop idx).take (o - idx)).length) rest
    else ob.drop idx

/-- Alternating concatenation of origin gaps and insertion contents; the
trailing gaps are appended when the insertions run out. -/
def altJoin : List (List Nat) → List (List Nat) → List Nat
  | gs, [] => gs.flatten
  | [], _ :: _ => []
  | g :: gs, i :: is => g ++ i ++ altJoin gs is

/-- Keys strictly ascending: the `BTreeMap` iteration-order invariant. -/
def sortedKeys (l : List (Nat × α)) : Prop :=
  l.Pairwise fun a b => a.1 < b.1

/-! Basic facts about scripts. -/

theorem scriptFlat_nil : scriptFlat [] = [] := rfl

theorem scriptFlat_cons (e : Ev) (s : Script) :
    scriptFlat (e :: s) = evBytes e ++ scriptFlat s := by
  simp [scriptFlat]

theorem scriptBytes_cons (e : Ev) (s : Script) :
    scriptBytes (e :: s) = (evBytes e).length + scriptBytes s := by
  simp [scriptBytes, scriptFlat_cons]

theorem failFree_cons_int (s : Script) :
    failFree (Ev.int :: s) = failFree s := by
  simp [failFree]

theorem failFree_cons_chunk (b : Nat) (bs : List Nat) (s : Script) :
    failFree (Ev.chunk b bs :: s) = failFree s := by
  simp [failFree]

theorem failFree_cons_fail (e : Nat) (s : Script) :
    failFree (Ev.fail e :: s) = false := by
  simp [failFree]

theorem BUFFER_SIZE_pos : 0 < BUFFER_SIZE := by decide

/-! Behavior of the drain loop. -/

theorem drainLoop_ok : ∀ (fuel : Nat) (s : Script) (sink : List Nat),
    failFree s = true → scriptBytes s + s.length < fuel →
    drainLoop fuel s sink = (none, sink ++ scriptFlat s) := by
  intro fuel
  induction fuel with
  | zero => intro s sink _ hf; omega
  | succ fuel ih =>
    intro s sink hff hf
    match s with
    | [] => simp [drainLoop, readS, scriptFlat]
    | Ev.int :: rest =>
      rw [failFree_cons_int] at hff
      rw [scriptBytes_cons] at hf
      simp only [evBytes, List.length_nil, List.length_cons] at hf
      have h2 : scriptBytes rest + rest.length < fuel := by omega
      simp only [drainLoop, readS]
      rw [ih rest sink hff h2]
      simp [scriptFlat_cons, evBytes]
    | Ev.fail e :: rest =>
      rw [failFree_cons_fail] at hff; cases hff
    | Ev.chunk b bs :: rest =>
      rw [failFree_cons_chunk] at hff
      rw [scriptBytes_cons] at hf
      simp only [evBytes, List.length_cons] at hf
      simp only [drainLoop, readS]
      rcases hdr : (b :: bs).drop BUFFER_SIZE with _ | ⟨r, rs⟩
      · -- the whole chunk fits in the buffer
        have hlen : (b :: bs).length ≤ BUFFER_SIZE := by
          rw [← List.drop_eq_nil_iff]; exact hdr
        have htake : (b :: bs).take BUFFER_SIZE = b :: bs :=
          List.take_of_length_le hlen
        have h2 : scriptBytes rest + rest.length < fuel := by
          simp only [List.length_cons] at hlen ⊢; omega
        rw [htake, ih rest (sink ++ b :: bs) hff h2]
        simp [scriptFlat_cons, evBytes]
      · -- partial delivery: the remainder stays at the head of the script
        have hconc : (b :: bs).take BUFFER_SIZE ++ (r :: rs) = b :: bs := by
          rw [← hdr]; exact List.take_append_drop _ _
        have hgt : BUFFER_SIZE < (b :: bs).length := by
          by_contra hc
          push_neg at hc
          rw [List.drop_eq_nil_of_le hc] at hdr; cases hdr
        have hlenr : (r :: rs).length + BUFFER_SIZE = (b :: bs).length := by
          have h3 := congrArg List.length hconc
          simp only [List.length_append, List.length_take] at h3
          omega
        have h2 : scriptBytes (Ev.chunk r rs :: rest) +
            (Ev.chunk r rs :: rest).length < fuel := by
          rw [scriptBytes_cons]
          simp only [evBytes, List.length_cons] at *
          have hBpos := BUFFER_SIZE_pos
          omega
        have hffr2 : failFree (Ev.chunk r rs :: rest) = true := by
          rw [failFree_cons_chunk]; exact hff
        rw [ih (Ev.chunk r rs :: rest) (sink ++ (b :: bs).take BUFFER_SIZE) hffr2 h2]
        rw [scriptFlat_cons, scriptFlat_cons]
        simp only [evBytes, List.append_assoc]
        rw [← List.append_assoc ((b :: bs).take BUFFER_SIZE) (r :: rs), hconc]

theorem drainLoop_fail : ∀ (fuel : Nat) (pre : Script) (e : Nat) (post : Script)
    (sink : List Nat),
    failFree pre = true → scriptBytes pre + pre.length < fuel →
    drainLoop fuel (pre ++ Ev.fail e :: post) sink = (some e, sink ++ scriptFlat pre) := by
  intro fuel
  induction fuel with
  | zero => intro pre e post sink _ hf; omega
  | succ fuel ih =>
    intro pre e post sink hff hf
    match pre with
    | [] => simp [drainLoop, readS, scriptFlat]
    | Ev.int :: rest =>
      rw [failFree_cons_int] at hff
      rw [scriptBytes_cons] at hf
      simp only [evBytes, List.length_nil, List.length_cons] at hf
      have h2 : scriptBytes rest + rest.length < fuel := by omega
      simp only [List.cons_append, drainLoop, readS]
      rw [ih rest e post sink hff h2]
      simp [scriptFlat_cons, evBytes]
    | Ev.fail e' :: rest =>
      rw [failFree_cons_fail] at hff; cases hff
    | Ev.chunk b bs :: rest =>
      rw [failFree_cons_chunk] at hff
      rw [scriptBytes_cons] at hf
      simp only [evBytes, List.length_cons] at hf
      simp only [List.cons_append, drainLoop, readS]
      rcases hdr : (b :: bs).drop BUFFER_SIZE with _ | ⟨r, rs⟩
      · have hlen : (b :: bs).length ≤ BUFFER_SIZE := by
          rw [← List.drop_eq_nil_iff]; exact hdr
        have htake : (b :: bs).take BUFFER_SIZE = b :: bs :=
          List.take_of_length_le hlen
        have h2 : scriptBytes rest + rest.length < fuel := by
          simp only [List.length_cons] at hlen ⊢; omega
        rw [htake, ih rest e post (sink ++ b :: bs) hff h2]
        simp [scriptFlat_cons, evBytes]
      · have hconc : (b :: bs).take BUFFER_SIZE ++ (r :: rs) = b :: bs := by
          rw [← hdr]; exact List.take_append_drop _ _
        have hgt : BUFFER_SIZE < (b :: bs).length := by
          by_contra hc
          push_neg at hc
          rw [List.drop_eq_nil_of_le hc] at hdr; cases hdr
        have hlenr : (r :: rs).length + BUFFER_SIZE = (b :: bs).length := by
          have h3 := congrArg List.length hconc
          simp only [List.length_append, List.length_take] at h3
          omega
        have h2 : scriptBytes (Ev.chunk r rs :: rest) +
            (Ev.chunk r rs :: rest).length < fuel := by
          rw [scriptBytes_cons]
          simp only [evBytes, List.length_cons] at *
          have hBpos := BUFFER_SIZE_pos
          omega
        have hffr2 : failFree (Ev.chunk r rs :: rest) = true := by
          rw [failFree_cons_chunk]; exact hff
        have hres := ih (Ev.chunk r rs :: rest) e post
          (sink ++ (b :: bs).take BUFFER_SIZE) hffr2 h2
        rw [List.cons_append] at hres
        rw [hres]
        rw [scriptFlat_cons, scriptFlat_cons]
        simp only [evBytes, List.append_assoc]
        rw [← List.append_assoc ((b :: bs).take BUFFER_SIZE) (r :: rs), hconc]

/-! Behavior of the gap loop. -/

theorem gapLoop_ok : ∀ (fuel insertIdx idx : Nat) (s : Script) (sink : List Nat),
    failFree s = true → (insertIdx - idx) + s.length < fuel →
    ∃ s', gapLoop fuel insertIdx idx s sink =
        (none, s', idx + min (insertIdx - idx) (scriptBytes s),
          sink ++ (scriptFlat s).take (insertIdx - idx)) ∧
      failFree s' = true ∧ scriptFlat s' = (scriptFlat s).drop (insertIdx - idx) := by
  intro fuel
  induction fuel with
  | zero => intro insertIdx idx s sink _ hf; omega
  | succ fuel ih =>
    intro insertIdx idx s sink hff hf
    by_cases h : idx < insertIdx
    · match s with
      | [] =>
        refine ⟨[], ?_, rfl, by simp [scriptFlat]⟩
        simp [gapLoop, readS, if_pos h, scriptFlat, scriptBytes]
      | Ev.int :: rest =>
        rw [failFree_cons_int] at hff
        have h2 : (insertIdx - idx) + rest.length < fuel := by
          simp only [List.length_cons] at hf; omega
        obtain ⟨s', hrun, hffs', hflat⟩ := ih insertIdx idx rest sink hff h2
        refine ⟨s', ?_, hffs', ?_⟩
        · simp only [gapLoop, if_pos h, readS]
          rw [hrun, scriptFlat_cons, scriptBytes_cons]
          simp [evBytes]
        · rw [hflat, scriptFlat_cons]; simp [evBytes]
      | Ev.fail e :: rest =>
        rw [failFree_cons_fail] at hff; cases hff
      | Ev.chunk b bs :: rest =>
        rw [failFree_cons_chunk] at hff
        have hgap : 1 ≤ insertIdx - idx := by omega
        have hfs : scriptFlat (Ev.chunk b bs :: rest) = (b :: bs) ++ scriptFlat rest :=
          scriptFlat_cons _ _
        have hbytes : scriptBytes (Ev.chunk b bs :: rest) =
            (b :: bs).length + scriptBytes rest := by
          rw [scriptBytes_cons]; simp [evBytes]
        simp only [gapLoop, if_pos h, readS]
        obtain ⟨cap, hcapeq⟩ : ∃ cap, min BUFFER_SIZE (insertIdx - idx) = cap := ⟨_, rfl⟩
        have hcap1 : 1 ≤ cap := by
          rw [← hcapeq]; exact le_min BUFFER_SIZE_pos hgap
        have hcapg : cap ≤ insertIdx - idx := by
          rw [← hcapeq]; exact min_le_right _ _
        rw [hcapeq]
        rcases hdr : (b :: bs).drop cap with _ | ⟨r, rs⟩
        · -- whole chunk delivered in one read
          have hlen : (b :: bs).length ≤ cap := by
            rw [← List.drop_eq_nil_iff]; exact hdr
          have htake : (b :: bs).take cap = b :: bs :=
            List.take_of_length_le hlen
          have hdle : (b :: bs).length ≤ insertIdx - idx := le_trans hlen hcapg
          have h2 : (insertIdx - (idx + (b :: bs).length)) + rest.length < fuel := by
            have hfl : (Ev.chunk b bs :: rest).length = rest.length + 1 := rfl
            rw [hfl] at hf
            omega
          obtain ⟨s', hrun, hffs', hflat⟩ :=
            ih insertIdx (idx + (b :: bs).length) rest (sink ++ (b :: bs)) hff h2
          rw [htake]
          refine ⟨s', ?_, hffs', ?_⟩
          · rw [hrun]
            simp only [Prod.mk.injEq, true_and]
            constructor
            · rw [hbytes]; omega
            · rw [hfs, List.take_append_eq_append_take,
                List.take_of_length_le hdle, List.append_assoc]
              have heq : insertIdx - idx - (b :: bs).length =
                  insertIdx - (idx + (b :: bs).length) := by omega
              rw [heq]
          · rw [hflat, hfs, List.drop_append_eq_append_drop,
              List.drop_eq_nil_of_le hdle, List.nil_append]
            have heq : insertIdx - idx - (b :: bs).length =
                insertIdx - (idx + (b :: bs).length) := by omega
            rw [heq]
        · -- partial delivery, remainder stays at the head
          have hgt : cap < (b :: bs).length := by
            by_contra hc
            push_neg at hc
            rw [List.drop_eq_nil_of_le hc] at hdr; cases hdr
          have hconc : (b :: bs).take cap ++ (r :: rs) = b :: bs := by
            rw [← hdr]; exact List.take_append_drop _ _
          have htl : ((b :: bs).take cap).length = cap := by
            rw [List.length_take]; omega
          have hffr2 : failFree (Ev.chunk r rs :: rest) = true := by
            rw [failFree_cons_chunk]; exact hff
          have hlenr : (r :: rs).length + cap = (b :: bs).length := by
            have h3 := congrArg List.length hconc
            simp only [List.length_append, htl] at h3
            omega
          have h2 : (insertIdx - (idx + cap)) +
              (Ev.chunk r rs :: rest).length < fuel := by
            have hfl : (Ev.chunk b bs :: rest).length = rest.length + 1 := rfl
            have hfl2 : (Ev.chunk r rs :: rest).length = rest.length + 1 := rfl
            rw [hfl] at hf
            rw [hfl2]
            omega
          obtain ⟨s', hrun, hffs', hflat⟩ :=
            ih insertIdx (idx + cap) (Ev.chunk r rs :: rest)
              (sink ++ (b :: bs).take cap) hffr2 h2
          have hfs2 : scriptFlat (Ev.chunk r rs :: rest) =
              (scriptFlat (Ev.chunk b bs :: rest)).drop cap := by
            rw [scriptFlat_cons, hfs, List.drop_append_eq_append_drop, hdr]
            have hz2 : cap - (b :: bs).length = 0 := by omega
            rw [hz2]
            simp [evBytes]
          have hdel : (b :: bs).take cap =
              (scriptFlat (Ev.chunk b bs :: rest)).take cap := by
            rw [hfs, List.take_append_eq_append_take]
            have hz : cap - (b :: bs).length = 0 := by omega
            rw [hz]
            simp
          refine ⟨s', ?_, hffs', ?_⟩
          · rw [htl, hrun]
            simp only [Prod.mk.injEq, true_and]
            constructor
            · have hbytes2 : scriptBytes (Ev.chunk r rs :: rest) =
                  scriptBytes (Ev.chunk b bs :: rest) - cap := by
                simp only [scriptBytes, hfs2, List.length_drop]
              have hbytesge : cap ≤ scriptBytes (Ev.chunk b bs :: rest) := by
                rw [hbytes]; omega
              rw [hbytes2]
              rcases Nat.le_total (insertIdx - idx) (scriptBytes (Ev.chunk b bs :: rest))
                with hmin | hmin
              · have hA : insertIdx - (idx + cap) ≤
                    scriptBytes (Ev.chunk b bs :: rest) - cap := by omega
                rw [min_eq_left hA, min_eq_left hmin]
                omega
              · have hA : scriptBytes (Ev.chunk b bs :: rest) - cap ≤
                    insertIdx - (idx + cap) := by omega
                rw [min_eq_right hA, min_eq_right hmin]
                omega
            · rw [hfs2, hdel, List.append_assoc, ← List.take_add]
              have heq : cap + (insertIdx - (idx + cap)) = insertIdx - idx := by omega
              rw [heq]
          · rw [hflat, hfs2, List.drop_drop]
            have heq : cap + (insertIdx - (idx + cap)) = insertIdx - idx := by omega
            rw [heq]
    · refine ⟨s, ?_, hff, ?_⟩
      · have hz : insertIdx - idx = 0 := by omega
        simp [gapLoop, if_neg h, hz]
      · have hz : insertIdx - idx = 0 := by omega
        simp [hz]

theorem gapLoop_fail : ∀ (fuel insertIdx idx : Nat) (pre : Script) (e : Nat)
    (post : Script) (sink : List Nat),
    failFree pre = true → idx + scriptBytes pre < insertIdx →
    scriptBytes pre + pre.length < fuel →
    gapLoop fuel insertIdx idx (pre ++ Ev.fail e :: post) sink =
      (some e, post, idx + scriptBytes pre, sink ++ scriptFlat pre) := by
  intro fuel
  induction fuel with
  | zero => intro insertIdx idx pre e post sink _ _ hf; omega
  | succ fuel ih =>
    intro insertIdx idx pre e post sink hff hidx hf
    match pre with
    | [] =>
      have h : idx < insertIdx := by
        simpa [scriptBytes, scriptFlat] using hidx
      simp [gapLoop, if_pos h, readS, scriptBytes, scriptFlat]
    | Ev.int :: rest =>
      rw [failFree_cons_int] at hff
      have hb : scriptBytes (Ev.int :: rest) = scriptBytes rest := by
        rw [scriptBytes_cons]; simp [evBytes]
      rw [hb] at hidx ⊢
      have h : idx < insertIdx := by omega
      have h2 : scriptBytes rest + rest.length < fuel := by
        rw [hb] at hf
        simp only [List.length_cons] at hf
        omega
      simp only [List.cons_append, gapLoop, if_pos h, readS]
      rw [ih insertIdx idx rest e post sink hff hidx h2, scriptFlat_cons]
      simp [evBytes]
    | Ev.chunk b bs :: rest =>
      rw [failFree_cons_chunk] at hff
      have hb : scriptBytes (Ev.chunk b bs :: rest) =
          (b :: bs).length + scriptBytes rest := by
        rw [scriptBytes_cons]; simp [evBytes]
      have hfsp : scriptFlat (Ev.chunk b bs :: rest) = (b :: bs) ++ scriptFlat rest :=
        scriptFlat_cons _ _
      have h : idx < insertIdx := by rw [hb] at hidx; omega
      simp only [List.cons_append, gapLoop, if_pos h, readS]
      obtain ⟨cap, hcapeq⟩ : ∃ cap, min BUFFER_SIZE (insertIdx - idx) = cap := ⟨_, rfl⟩
      have hcap1 : 1 ≤ cap := by
        rw [← hcapeq]
        exact le_min BUFFER_SIZE_pos (by omega)
      have hcapg : cap ≤ insertIdx - idx := by
        rw [← hcapeq]; exact min_le_right _ _
      rw [hcapeq]
      rcases hdr : (b :: bs).drop cap with _ | ⟨r, rs⟩
      · -- whole chunk delivered in one read
        have hlen : (b :: bs).length ≤ cap := by
          rw [← List.drop_eq_nil_iff]; exact hdr
        have htake : (b :: bs).take cap = b :: bs :=
          List.take_of_length_le hlen
        have hidx2 : (idx + (b :: bs).length) + scriptBytes rest < insertIdx := by
          rw [hb] at hidx; omega
        have h2 : scriptBytes rest + rest.length < fuel := by
          rw [hb] at hf
          simp only [List.length_cons] at hf
          omega
        rw [htake, ih insertIdx (idx + (b :: bs).length) rest e post
          (sink ++ (b :: bs)) hff hidx2 h2]
        rw [hb, hfsp]
        simp only [Prod.mk.injEq, true_and, List.append_assoc, and_true]
        omega
      · -- partial delivery, remainder stays at the head
        have hgt : cap < (b :: bs).length := by
          by_contra hc
          push_neg at hc
          rw [List.drop_eq_nil_of_le hc] at hdr; cases hdr
        have hconc : (b :: bs).take cap ++ (r :: rs) = b :: bs := by
          rw [← hdr]; exact List.take_append_drop _ _
        have htl : ((b :: bs).take cap).length = cap := by
          rw [List.length_take]; omega
        have hffr2 : failFree (Ev.chunk r rs :: rest) = true := by
          rw [failFree_cons_chunk]; exact hff
        have hlenr : (r :: rs).length + cap = (b :: bs).length := by
          have h3 := congrArg List.length hconc
          simp only [List.length_append, htl] at h3
          omega
        have hb2 : scriptBytes (Ev.chunk r rs :: rest) =
            (r :: rs).length + scriptBytes rest := by
          rw [scriptBytes_cons]; simp [evBytes]
        have hidx2 : (idx + cap) + scriptBytes (Ev.chunk r rs :: rest) < insertIdx := by
          rw [hb2]; rw [hb] at hidx; omega
        have h2 : scriptBytes (Ev.chunk r rs :: rest) +
            (Ev.chunk r rs :: rest).length < fuel := by
          rw [hb2]
          rw [hb] at hf
          have hL1 : (Ev.chunk b bs :: rest).length = rest.length + 1 := rfl
          have hL2 : (Ev.chunk r rs :: rest).length = rest.length + 1 := rfl
          rw [hL1] at hf
          rw [hL2]
          omega
        have hres := ih insertIdx (idx + cap) (Ev.chunk r rs :: rest) e post
          (sink ++ (b :: bs).take cap) hffr2 hidx2 h2
        rw [List.cons_append] at hres
        rw [htl, hres, hb, hb2, hfsp, scriptFlat_cons]
        simp only [Prod.mk.injEq, true_and, evBytes, List.append_assoc]
        constructor
        · omega
        · rw [← List.append_assoc ((b :: bs).take cap) (r :: rs), hconc]

/-- When the gap fits inside a fail-free leading part of the origin
script, the gap loop completes without ever reading past that part: the
tail of the script is untouched and stays behind the unread remainder. -/
theorem gapLoop_covered : ∀ (fuel insertIdx idx : Nat) (pre tail : Script)
    (sink : List Nat),
    failFree pre = true → insertIdx - idx ≤ scriptBytes pre →
    (insertIdx - idx) + pre.length < fuel →
    ∃ pre', gapLoop fuel insertIdx idx (pre ++ tail) sink =
        (none, pre' ++ tail, idx + (insertIdx - idx),
          sink ++ (scriptFlat pre).take (insertIdx - idx)) ∧
      failFree pre' = true ∧
      scriptFlat pre' = (scriptFlat pre).drop (insertIdx - idx) := by
  intro fuel
  induction fuel with
  | zero => intro insertIdx idx pre tail sink _ _ hf; omega
  | succ fuel ih =>
    intro insertIdx idx pre tail sink hff hle hf
    by_cases h : idx < insertIdx
    · match pre with
      | [] =>
        exfalso
        simp [scriptBytes, scriptFlat] at hle
        omega
      | Ev.int :: rest =>
        rw [failFree_cons_int] at hff
        have hb : scriptBytes (Ev.int :: rest) = scriptBytes rest := by
          rw [scriptBytes_cons]; simp [evBytes]
        rw [hb] at hle
        have h2 : (insertIdx - idx) + rest.length < fuel := by
          simp only [List.length_cons] at hf; omega
        obtain ⟨pre', hrun, hffp, hflatp⟩ := ih insertIdx idx rest tail sink hff hle h2
        refine ⟨pre', ?_, hffp, ?_⟩
        · simp only [List.cons_append, gapLoop, if_pos h, readS]
          rw [hrun, scriptFlat_cons]
          simp [evBytes]
        · rw [hflatp, scriptFlat_cons]; simp [evBytes]
      | Ev.fail e' :: rest =>
        rw [failFree_cons_fail] at hff; cases hff
      | Ev.chunk b bs :: rest =>
        rw [failFree_cons_chunk] at hff
        have hgap : 1 ≤ insertIdx - idx := by omega
        have hfsp : scriptFlat (Ev.chunk b bs :: rest) = (b :: bs) ++ scriptFlat rest :=
          scriptFlat_cons _ _
        have hb : scriptBytes (Ev.chunk b bs :: rest) =
            (b :: bs).length + scriptBytes rest := by
          rw [scriptBytes_cons]; simp [evBytes]
        simp only [List.cons_append, gapLoop, if_pos h, readS]
        obtain ⟨cap, hcapeq⟩ : ∃ cap, min BUFFER_SIZE (insertIdx - idx) = cap := ⟨_, rfl⟩
        have hcap1 : 1 ≤ cap := by
          rw [← hcapeq]; exact le_min BUFFER_SIZE_pos hgap
        have hcapg : cap ≤ insertIdx - idx := by
          rw [← hcapeq]; exact min_le_right _ _
        rw [hcapeq]
        rcases hdr : (b :: bs).drop cap with _ | ⟨r, rs⟩
        · -- whole chunk delivered in one read
          have hlen : (b :: bs).length ≤ cap := by
            rw [← List.drop_eq_nil_iff]; exact hdr
          have htake : (b :: bs).take cap = b :: bs :=
            List.take_of_length_le hlen
          have hdle : (b :: bs).length ≤ insertIdx - idx := le_trans hlen hcapg
          have hle2 : insertIdx - (idx + (b :: bs).length) ≤ scriptBytes rest := by
            rw [hb] at hle; omega
          have h2 : (insertIdx - (idx + (b :: bs).length)) + rest.length < fuel := by
            have hfl : (Ev.chunk b bs :: rest).length = rest.length + 1 := rfl
            rw [hfl] at hf
            omega
          obtain ⟨pre', hrun, hffp, hflatp⟩ :=
            ih insertIdx (idx + (b :: bs).length) rest tail (sink ++ (b :: bs)) hff hle2 h2
          rw [htake]
          refine ⟨pre', ?_, hffp, ?_⟩
          · rw [hrun]
            simp only [Prod.mk.injEq, true_and]
            constructor
            · omega
            · rw [hfsp, List.take_append_eq_append_take,
                List.take_of_length_le hdle, List.append_assoc]
              have heq : insertIdx - idx - (b :: bs).length =
                  insertIdx - (idx + (b :: bs).length) := by omega
              rw [heq]
          · rw [hflatp, hfsp, List.drop_append_eq_append_drop,
              List.drop_eq_nil_of_le hdle, List.nil_append]
            have heq : insertIdx - idx - (b :: bs).length =
                insertIdx - (idx + (b :: bs).length) := by omega
            rw [heq]
        · -- partial delivery, remainder stays at the head
          have hgt : cap < (b :: bs).length := by
            by_contra hc
            push_neg at hc
            rw [List.drop_eq_nil_of_le hc] at hdr; cases hdr
          have hconc : (b :: bs).take cap ++ (r :: rs) = b :: bs := by
            rw [← hdr]; exact List.take_append_drop _ _
          have htl : ((b :: bs).take cap).length = cap := by
            rw [List.length_take]; omega
          have hffr2 : failFree (Ev.chunk r rs :: rest) = true := by
            rw [failFree_cons_chunk]; exact hff
          have hlenr : (r :: rs).length + cap = (b :: bs).length := by
            have h3 := congrArg List.length hconc
            simp only [List.length_append, htl] at h3
            omega
          have hb2 : scriptBytes (Ev.chunk r rs :: rest) =
              (r :: rs).length + scriptBytes rest := by
            rw [scriptBytes_cons]; simp [evBytes]
          have hle2 : insertIdx - (idx + cap) ≤ scriptBytes (Ev.chunk r rs :: rest) := by
            rw [hb2]; rw [hb] at hle; omega
          have h2 : (insertIdx - (idx + cap)) + (Ev.chunk r rs :: rest).length < fuel := by
            have hL1 : (Ev.chunk b bs :: rest).length = rest.length + 1 := rfl
            have hL2 : (Ev.chunk r rs :: rest).length = rest.length + 1 := rfl
            rw [hL1] at hf
            rw [hL2]
            omega
          obtain ⟨pre', hrun, hffp, hflatp⟩ :=
            ih insertIdx (idx + cap) (Ev.chunk r rs :: rest) tail
              (sink ++ (b :: bs).take cap) hffr2 hle2 h2
          rw [List.cons_append] at hrun
          have hfs2 : scriptFlat (Ev.chunk r rs :: rest) =
              (scriptFlat (Ev.chunk b bs :: rest)).drop cap := by
            rw [scriptFlat_cons, hfsp, List.drop_append_eq_append_drop, hdr]
            have hz2 : cap - (b :: bs).length = 0 := by omega
            rw [hz2]
            simp [evBytes]
          have hdel : (b :: bs).take cap =
              (scriptFlat (Ev.chunk b bs :: rest)).take cap := by
            rw [hfsp, List.take_append_eq_append_take]
            have hz : cap - (b :: bs).length = 0 := by omega
            rw [hz]
            simp
          refine ⟨pre', ?_, hffp, ?_⟩
          · rw [htl, hrun]
            simp only [Prod.mk.injEq, true_and]
            constructor
            · omega
            · rw [hfs2, hdel, List.append_assoc, ← List.take_add]
              have heq : cap + (insertIdx - (idx + cap)) = insertIdx - idx := by omega
              rw [heq]
          · rw [hflatp, hfs2, List.drop_drop]
            have heq : cap + (insertIdx - (idx + cap)) = insertIdx - idx := by omega
            rw [heq]
    · have hz : insertIdx - idx = 0 := by omega
      refine ⟨pre, ?_, hff, ?_⟩
      · simp [gapLoop, if_neg h, hz]
      · simp [hz]

/-! From script schedules to byte schedules, and the schedule walk. -/

/-- Byte contents of a script schedule. -/
def mapFlat (sched : List (Nat × Script)) : List (Nat × List Nat) :=
  sched.map fun p => (p.1, scriptFlat p.2)

theorem splicePart_nil (ob : List Nat) (idx : Nat) :
    splicePart ob idx [] = ([], idx) := rfl

theorem splicePart_cons (ob : List Nat) (idx o : Nat) (ins : List Nat)
    (rest : List (Nat × List Nat)) :
    splicePart ob idx ((o, ins) :: rest) =
      ((ob.drop idx).take (o - idx) ++ ins ++
        (splicePart ob (idx + ((ob.drop idx).take (o - idx)).length) rest).1,
       (splicePart ob (idx + ((ob.drop idx).take (o - idx)).length) rest).2) := rfl

theorem mapFlat_cons (o : Nat) (ins : Script) (rest : List (Nat × Script)) :
    mapFlat ((o, ins) :: rest) = (o, scriptFlat ins) :: mapFlat rest := rfl

theorem spliceFail_nil (ob : List Nat) (idx : Nat) :
    spliceFail ob idx [] = ob.drop idx := rfl

theorem spliceFail_cons (ob : List Nat) (idx o : Nat) (ins : List Nat)
    (rest : List (Nat × List Nat)) :
    spliceFail ob idx ((o, ins) :: rest) =
      if o ≤ ob.length then
        (ob.drop idx).take (o - idx) ++ ins ++
          spliceFail ob (idx + ((ob.drop idx).take (o - idx)).length) rest
      else ob.drop idx := rfl

theorem executeLoop_ok : ∀ (sched : List (Nat × Script)) (O : Script) (idx : Nat)
    (sink ob : List Nat),
    failFree O = true → (∀ p ∈ sched, failFree p.2 = true) →
    scriptFlat O = ob.drop idx → idx ≤ ob.length →
    ∃ O', executeLoop sched O idx sink =
        (none, O', (splicePart ob idx (mapFlat sched)).2,
          sink ++ (splicePart ob idx (mapFlat sched)).1) ∧
      failFree O' = true ∧
      scriptFlat O' = ob.drop (splicePart ob idx (mapFlat sched)).2 ∧
      (splicePart ob idx (mapFlat sched)).2 ≤ ob.length := by
  intro sched
  induction sched with
  | nil =>
    intro O idx sink ob hffO _ hflat hle
    refine ⟨O, ?_, hffO, ?_, ?_⟩
    · simp [executeLoop, mapFlat, splicePart]
    · simpa [mapFlat, splicePart] using hflat
    · simpa [mapFlat, splicePart] using hle
  | cons p rest ih =>
    obtain ⟨o, ins⟩ := p
    intro O idx sink ob hffO hffs hflat hle
    have hffins : failFree ins = true := hffs (o, ins) (by simp)
    have hffrest : ∀ q ∈ rest, failFree q.2 = true := fun q hq => hffs q (by simp [hq])
    have hfuel : (o - idx) + O.length < (o - idx) + O.length + 1 := by omega
    obtain ⟨O1, hrun1, hff1, hflat1⟩ :=
      gapLoop_ok ((o - idx) + O.length + 1) o idx O sink hffO hfuel
    have hOb : scriptBytes O = ob.length - idx := by
      rw [scriptBytes, hflat, List.length_drop]
    rw [hOb, hflat] at hrun1
    rw [hflat] at hflat1
    have hflat1' : scriptFlat O1 = ob.drop (idx + min (o - idx) (ob.length - idx)) := by
      rw [hflat1, List.drop_drop]
      rcases Nat.le_total (o - idx) (ob.length - idx) with hc | hc
      · rw [min_eq_left hc]
      · rw [min_eq_right hc]
        have h1 : ob.length ≤ idx + (o - idx) := by omega
        have h2 : ob.length ≤ idx + (ob.length - idx) := by omega
        rw [List.drop_eq_nil_of_le h1, List.drop_eq_nil_of_le h2]
    have hle2 : idx + min (o - idx) (ob.length - idx) ≤ ob.length := by
      rcases Nat.le_total (o - idx) (ob.length - idx) with hc | hc
      · rw [min_eq_left hc]; omega
      · rw [min_eq_right hc]; omega
    have hdfuel : scriptBytes ins + ins.length < scriptFuel ins := by
      rw [scriptFuel]; omega
    have hdrain := drainLoop_ok (scriptFuel ins) ins
      (sink ++ (ob.drop idx).take (o - idx)) hffins hdfuel
    obtain ⟨O', hrun2, hff2, hflat2, hle3⟩ :=
      ih O1 (idx + min (o - idx) (ob.length - idx))
        (sink ++ (ob.drop idx).take (o - idx) ++ scriptFlat ins) ob hff1 hffrest
        hflat1' hle2
    have hlg : ((ob.drop idx).take (o - idx)).length = min (o - idx) (ob.length - idx) := by
      rw [List.length_take, List.length_drop]
    have hstep1 : executeLoop ((o, ins) :: rest) O idx sink =
        match drainLoop (scriptFuel ins) ins (sink ++ (ob.drop idx).take (o - idx)) with
        | (some e, sink2) =>
          (some e, O1, idx + min (o - idx) (ob.length - idx), sink2)
        | (none, sink2) =>
          executeLoop rest O1 (idx + min (o - idx) (ob.length - idx)) sink2 := by
      simp only [executeLoop]
      rw [hrun1]
    refine ⟨O', ?_, hff2, ?_, ?_⟩
    · calc executeLoop ((o, ins) :: rest) O idx sink
          = executeLoop rest O1 (idx + min (o - idx) (ob.length - idx))
            (sink ++ (ob.drop idx).take (o - idx) ++ scriptFlat ins) := by
            rw [hstep1, hdrain]
        _ = (none, O',
              (splicePart ob (idx + min (o - idx) (ob.length - idx)) (mapFlat rest)).2,
              sink ++ (ob.drop idx).take (o - idx) ++ scriptFlat ins ++
                (splicePart ob (idx + min (o - idx) (ob.length - idx)) (mapFlat rest)).1) := by
            rw [hrun2]
        _ = (none, O', (splicePart ob idx (mapFlat ((o, ins) :: rest))).2,
              sink ++ (splicePart ob idx (mapFlat ((o, ins) :: rest))).1) := by
            simp only [mapFlat, List.map_cons, splicePart_cons, hlg]
            simp [List.append_assoc, mapFlat]
    · rw [hflat2]
      simp only [mapFlat, List.map_cons, splicePart_cons, hlg]
    · simpa only [mapFlat, List.map_cons, splicePart_cons, hlg] using hle3

/-! The master run of the engine on interruption-free producers. -/

theorem execute_ok (origin : Script) (insertions : List (Nat × Script))
    (target : List Nat)
    (hO : failFree origin = true) (hins : ∀ p ∈ insertions, failFree p.2 = true) :
    Inserter.execute ⟨origin, insertions, target⟩ =
      (none, target ++ spliceGo (scriptFlat origin) 0 (mapFlat insertions)) := by
  obtain ⟨O', hrun, hffO', hflatO', _⟩ :=
    executeLoop_ok insertions origin 0 target (scriptFlat origin) hO hins
      (by simp) (by simp)
  have hstep : Inserter.execute ⟨origin, insertions, target⟩ =
      match drainLoop (scriptFuel O') O'
        (target ++ (splicePart (scriptFlat origin) 0 (mapFlat insertions)).1) with
      | (some e, sink2) => (some e, sink2)
      | (none, sink2) => (none, sink2) := by
    simp only [Inserter.execute]
    rw [hrun]
  have hdfuel : scriptBytes O' + O'.length < scriptFuel O' := by
    rw [scriptFuel]; omega
  rw [hstep, drainLoop_ok _ _ _ hffO' hdfuel, hflatO']
  simp [spliceGo, List.append_assoc]

/-! In-memory slices as scripts. -/

theorem scriptFlat_sliceScript (l : List Nat) : scriptFlat (sliceScript l) = l := by
  cases l <;> simp [sliceScript, scriptFlat, evBytes]

theorem failFree_sliceScript (l : List Nat) : failFree (sliceScript l) = true := by
  cases l <;> simp [sliceScript, failFree]

/-! Structure of the BTreeMap model. -/

theorem btInsert_mem {α : Type} (k : Nat) (v : α) :
    ∀ (m : List (Nat × α)) (q : Nat × α), q ∈ btInsert k v m → q = (k, v) ∨ q ∈ m := by
  intro m
  induction m with
  | nil => intro q hq; simpa [btInsert] using hq
  | cons p rest ih =>
    obtain ⟨k', v'⟩ := p
    intro q hq
    by_cases h1 : k < k'
    · rw [btInsert, if_pos h1] at hq
      rcases List.mem_cons.mp hq with hq | hq
      · exact Or.inl hq
      · exact Or.inr hq
    · by_cases h2 : k = k'
      · rw [btInsert, if_neg h1, if_pos h2] at hq
        rcases List.mem_cons.mp hq with hq | hq
        · exact Or.inl hq
        · exact Or.inr (List.mem_cons_of_mem _ hq)
      · rw [btInsert, if_neg h1, if_neg h2] at hq
        rcases List.mem_cons.mp hq with hq | hq
        · exact Or.inr (by simp [hq])
        · rcases ih q hq with hq2 | hq2
          · exact Or.inl hq2
          · exact Or.inr (List.mem_cons_of_mem _ hq2)

theorem foldl_btInsert_mem {α : Type} :
    ∀ (l : List (Nat × α)) (m : List (Nat × α)) (q : Nat × α),
    q ∈ l.foldl (fun acc p => btInsert p.1 p.2 acc) m → q ∈ l ∨ q ∈ m := by
  intro l
  induction l with
  | nil => intro m q hq; exact Or.inr hq
  | cons p rest ih =>
    intro m q hq
    simp only [List.foldl_cons] at hq
    rcases ih (btInsert p.1 p.2 m) q hq with hq2 | hq2
    · exact Or.inl (by simp [hq2])
    · rcases btInsert_mem p.1 p.2 m q hq2 with hq3 | hq3
      · exact Or.inl (by simp [hq3])
      · exact Or.inr hq3

theorem buildSchedule_mem {α : Type} (l : List (Nat × α)) (q : Nat × α) :
    q ∈ buildSchedule l → q ∈ l := by
  intro hq
  rcases foldl_btInsert_mem l [] q hq with h | h
  · exact h
  · cases h

theorem btInsert_map {α β : Type} (f : α → β) (k : Nat) (v : α) :
    ∀ (m : List (Nat × α)),
    (btInsert k v m).map (fun p => (p.1, f p.2)) =
      btInsert k (f v) (m.map fun p => (p.1, f p.2)) := by
  intro m
  induction m with
  | nil => simp [btInsert]
  | cons p rest ih =>
    obtain ⟨k', v'⟩ := p
    simp only [btInsert, List.map_cons]
    by_cases h1 : k < k'
    · simp [btInsert, if_pos h1]
    · by_cases h2 : k = k'
      · simp [btInsert, if_neg h1, if_pos h2]
      · simp [btInsert, if_neg h1, if_neg h2, ih]

theorem foldl_btInsert_map {α β : Type} (f : α → β) :
    ∀ (l : List (Nat × α)) (m : List (Nat × α)),
    (l.foldl (fun acc p => btInsert p.1 p.2 acc) m).map (fun p => (p.1, f p.2)) =
      (l.map fun p => (p.1, f p.2)).foldl (fun acc p => btInsert p.1 p.2 acc)
        (m.map fun p => (p.1, f p.2)) := by
  intro l
  induction l with
  | nil => intro m; rfl
  | cons p rest ih =>
    intro m
    simp only [List.foldl_cons, List.map_cons]
    rw [ih, btInsert_map]

/-! The pure byte-level run. -/

theorem inserterOf_eq (ob : List Nat) (regs : List (Nat × List Nat)) :
    inserterOf ob regs = ⟨sliceScript ob,
      buildSchedule (regs.map fun p => (p.1, sliceScript p.2)), []⟩ := by
  have hgen : ∀ (rs : List (Nat × List Nat)) (st : Inserter),
      rs.foldl (fun i p => i.insert p.1 (sliceScript p.2)) st =
        ⟨st.origin, rs.foldl (fun m p => btInsert p.1 (sliceScript p.2) m) st.insertions,
          st.target⟩ := by
    intro rs
    induction rs with
    | nil => intro st; rfl
    | cons p rest ih =>
      intro st
      simp only [List.foldl_cons]
      rw [ih]
      rfl
  rw [inserterOf, hgen]
  have hfold : regs.foldl (fun m p => btInsert p.1 (sliceScript p.2) m)
      (Inserter.new (sliceScript ob) []).insertions =
      buildSchedule (regs.map fun p => (p.1, sliceScript p.2)) := by
    rw [buildSchedule, List.foldl_map]
    rfl
  rw [hfold]
  rfl

theorem mapFlat_buildSchedule_slices (regs : List (Nat × List Nat)) :
    mapFlat (buildSchedule (regs.map fun p => (p.1, sliceScript p.2))) =
      buildSchedule regs := by
  rw [mapFlat, buildSchedule, foldl_btInsert_map]
  have hmap : ((regs.map fun p => (p.1, sliceScript p.2)).map
      fun p => (p.1, scriptFlat p.2)) = regs := by
    rw [List.map_map]
    have : ∀ p : Nat × List Nat,
        ((fun p : Nat × Script => (p.1, scriptFlat p.2)) ∘
          fun p : Nat × List Nat => (p.1, sliceScript p.2)) p = p := by
      intro p
      simp [Function.comp, scriptFlat_sliceScript]
    rw [List.map_congr_left fun p _ => this p]
    simp
  rw [hmap]
  rfl

theorem runBytes_eq (ob : List Nat) (regs : List (Nat × List Nat)) :
    runBytes ob regs = (none, spliceGo ob 0 (buildSchedule regs)) := by
  rw [runBytes, inserterOf_eq]
  have hins : ∀ p ∈ buildSchedule (regs.map fun p => (p.1, sliceScript p.2)),
      failFree p.2 = true := by
    intro p hp
    have hmem := buildSchedule_mem _ p hp
    simp only [List.mem_map] at hmem
    obtain ⟨q, _, hq⟩ := hmem
    rw [← hq]
    exact failFree_sliceScript q.2
  rw [execute_ok _ _ _ (failFree_sliceScript ob) hins,
    scriptFlat_sliceScript, mapFlat_buildSchedule_slices]
  rfl

theorem spliceGo_nil (ob : List Nat) (idx : Nat) :
    spliceGo ob idx [] = ob.drop idx := by
  simp [spliceGo, splicePart]

theorem spliceGo_cons (ob : List Nat) (idx o : Nat) (ins : List Nat)
    (rest : List (Nat × List Nat)) :
    spliceGo ob idx ((o, ins) :: rest) =
      (ob.drop idx).take (o - idx) ++ ins ++
        spliceGo ob (idx + ((ob.drop idx).take (o - idx)).length) rest := by
  simp [spliceGo, splicePart_cons, List.append_assoc]

theorem btInsert_sorted {α : Type} (k : Nat) (v : α) :
    ∀ (m : List (Nat × α)), sortedKeys m → sortedKeys (btInsert k v m) := by
  intro m
  induction m with
  | nil =>
    intro _
    simp [btInsert, sortedKeys]
  | cons p rest ih =>
    obtain ⟨k', v'⟩ := p
    intro hs
    unfold sortedKeys at hs
    rw [List.pairwise_cons] at hs
    obtain ⟨hall, hrest⟩ := hs
    by_cases h1 : k < k'
    · unfold sortedKeys
      rw [btInsert, if_pos h1, List.pairwise_cons]
      constructor
      · intro q hq
        rcases List.mem_cons.mp hq with hq | hq
        · rw [hq]; exact h1
        · exact lt_trans h1 (hall q hq)
      · exact List.Pairwise.cons hall hrest
    · by_cases h2 : k = k'
      · unfold sortedKeys
        rw [btInsert, if_neg h1, if_pos h2, List.pairwise_cons]
        refine ⟨?_, hrest⟩
        intro q hq
        rw [h2]
        exact hall q hq
      · unfold sortedKeys
        rw [btInsert, if_neg h1, if_neg h2, List.pairwise_cons]
        constructor
        · intro q hq
          rcases btInsert_mem k v rest q hq with hq2 | hq2
          · rw [hq2]; omega
          · exact hall q hq2
        · exact ih hrest

theorem buildSchedule_sorted {α : Type} (l : List (Nat × α)) :
    sortedKeys (buildSchedule l) := by
  have haux : ∀ (l2 : List (Nat × α)) (m : List (Nat × α)), sortedKeys m →
      sortedKeys (l2.foldl (fun acc p => btInsert p.1 p.2 acc) m) := by
    intro l2
    induction l2 with
    | nil => intro m hm; exact hm
    | cons p rest ih =>
      intro m hm
      exact ih _ (btInsert_sorted _ _ _ hm)
  exact haux l [] (by unfold sortedKeys; simp)

theorem btInsert_perm {α : Type} (k : Nat) (v : α) :
    ∀ (m : List (Nat × α)), (∀ q ∈ m, q.1 ≠ k) →
    (btInsert k v m).Perm ((k, v) :: m) := by
  intro m
  induction m with
  | nil => intro _; rw [btInsert]
  | cons p rest ih =>
    obtain ⟨k', v'⟩ := p
    intro hk
    by_cases h1 : k < k'
    · rw [btInsert, if_pos h1]
    · by_cases h2 : k = k'
      · exact absurd h2.symm (hk (k', v') (List.mem_cons_self _ _))
      · rw [btInsert, if_neg h1, if_neg h2]
        have hperm1 : ((k', v') :: btInsert k v rest).Perm ((k', v') :: (k, v) :: rest) :=
          List.Perm.cons _ (ih fun q hq => hk q (List.mem_cons_of_mem _ hq))
        exact hperm1.trans (List.Perm.swap _ _ _)

theorem buildSchedule_perm {α : Type} (l : List (Nat × α))
    (hd : l.Pairwise fun a b => a.1 ≠ b.1) : (buildSchedule l).Perm l := by
  induction l using List.reverseRecOn with
  | nil => rw [buildSchedule]; rfl
  | append_singleton l p ih =>
    rw [List.pairwise_append] at hd
    obtain ⟨hdl, _, hcross⟩ := hd
    have hstep : buildSchedule (l ++ [p]) = btInsert p.1 p.2 (buildSchedule l) := by
      rw [buildSchedule, List.foldl_append]
      rfl
    rw [hstep]
    have h1 : (btInsert p.1 p.2 (buildSchedule l)).Perm ((p.1, p.2) :: buildSchedule l) := by
      refine btInsert_perm _ _ _ ?_
      intro q hq
      exact hcross q (buildSchedule_mem _ _ hq) p (List.mem_singleton.mpr rfl)
    have h2 : ((p.1, p.2) :: buildSchedule l).Perm (p :: l) := by
      exact List.Perm.cons _ (ih hdl)
    exact (h1.trans h2).trans (List.perm_append_singleton _ _).symm

/-! Splice-shape helper lemmas for the past-end and monotone-consumption claims. -/

theorem spliceGo_drop_eq (ob : List Nat) : ∀ (sched : List (Nat × List Nat)) (idx : Nat),
    (∀ p ∈ sched, ob.length ≤ p.1) →
    spliceGo ob idx sched = ob.drop idx ++ (sched.map Prod.snd).flatten := by
  intro sched
  induction sched with
  | nil =>
    intro idx _
    simp [spliceGo_nil]
  | cons p rest ih =>
    obtain ⟨o, ins⟩ := p
    intro idx hpast
    have ho : ob.length ≤ o := hpast (o, ins) (List.mem_cons_self _ _)
    have hlen : (ob.drop idx).length ≤ o - idx := by
      rw [List.length_drop]; omega
    have htake : (ob.drop idx).take (o - idx) = ob.drop idx :=
      List.take_of_length_le hlen
    have hdrop2 : ob.drop (idx + (ob.drop idx).length) = [] := by
      apply List.drop_eq_nil_of_le
      rw [List.length_drop]
      omega
    rw [spliceGo_cons, htake,
      ih (idx + (ob.drop idx).length) (fun q hq => hpast q (List.mem_cons_of_mem _ hq)),
      hdrop2]
    simp [List.append_assoc]

theorem spliceGo_gaps (ob : List Nat) : ∀ (sched : List (Nat × List Nat)) (idx : Nat),
    ∃ gaps : List (List Nat),
      gaps.length = sched.length + 1 ∧
      gaps.flatten = ob.drop idx ∧
      spliceGo ob idx sched = altJoin gaps (sched.map Prod.snd) := by
  intro sched
  induction sched with
  | nil =>
    intro idx
    exact ⟨[ob.drop idx], by simp, by simp, by simp [spliceGo_nil, altJoin]⟩
  | cons p rest ih =>
    obtain ⟨o, ins⟩ := p
    intro idx
    obtain ⟨gaps, hlen, hflat, hgo⟩ :=
      ih (idx + ((ob.drop idx).take (o - idx)).length)
    refine ⟨(ob.drop idx).take (o - idx) :: gaps, by simp [hlen], ?_, ?_⟩
    · have hdd : ob.drop (idx + ((ob.drop idx).take (o - idx)).length) =
          (ob.drop idx).drop ((ob.drop idx).take (o - idx)).length := by
        rw [List.drop_drop]
      have hkey : ∀ (l : List Nat) (k : Nat),
          l.take k ++ l.drop (l.take k).length = l := by
        intro l k
        rcases Nat.le_total k l.length with hc | hc
        · have h1 : (l.take k).length = k := by rw [List.length_take]; omega
          rw [h1]
          exact List.take_append_drop _ _
        · rw [List.take_of_length_le hc, List.drop_length]
          simp
      rw [List.flatten_cons, hflat, hdd]
      exact hkey (ob.drop idx) (o - idx)
    · rw [spliceGo_cons, hgo]
      simp [altJoin]

/-- Claim C1 (code bug): the specification states that two insertions registered
at the same offset are both emitted, consecutively and in registration order,
so that origin `XZ` with insertions `(1, A)` then `(1, B)` yields `XABZ`
(bytes `[88, 65, 66, 90]`).  The engine keeps its schedule in a map keyed by
offset whose `insert` replaces the previous entry, so the second registration
silently drops the first: on this input `execute` succeeds and emits `XBZ`
(bytes `[88, 66, 90]`), not `XABZ`. -/
theorem c1_duplicate_offset_replaced :
    runBytes [88, 90] [(1, [65]), (1, [66])] = (none, [88, 66, 90]) ∧
    (runBytes [88, 90] [(1, [65]), (1, [66])]).2 ≠ [88, 65, 66, 90] := by
  exact ⟨by decide, by decide⟩

/-- Claim C2: for every origin and schedule of insertions at distinct offsets,
a successful `execute` delivers exactly the origin bytes before each scheduled
offset (from the previous forwarding position, clamped by exhaustion) followed
by the full contents of the producer at that offset, with the offsets walked
in ascending order, and finally the remaining origin bytes; insertion bytes do
not advance the origin forwarding position.  The schedule `buildSchedule regs`
is strictly sorted by offset and is a permutation of the registrations, and
the run equals the `spliceGo` recurrence, which emits
`(ob.drop prev).take (o - prev)` then the insertion contents for each offset
`o`, then `ob.drop prev` at the end. -/
theorem c2_delivery_order (ob : List Nat) (regs : List (Nat × List Nat))
    (hdist : regs.Pairwise fun a b => a.1 ≠ b.1) :
    sortedKeys (buildSchedule regs) ∧ (buildSchedule regs).Perm regs ∧
      runBytes ob regs = (none, spliceGo ob 0 (buildSchedule regs)) :=
  ⟨buildSchedule_sorted regs, buildSchedule_perm regs hdist, runBytes_eq ob regs⟩

/-- Witness for C2 at a concrete input. -/
theorem c2_delivery_order_witness :
    (([(3, [7]), (1, [5])] : List (Nat × List Nat)).Pairwise fun a b => a.1 ≠ b.1) ∧
    (sortedKeys (buildSchedule [(3, [7]), (1, [5])]) ∧
      (buildSchedule [(3, [7]), (1, [5])]).Perm [(3, [7]), (1, [5])] ∧
      runBytes [1, 2] [(3, [7]), (1, [5])] =
        (none, spliceGo [1, 2] 0 (buildSchedule [(3, [7]), (1, [5])]))) :=
  ⟨by decide, c2_delivery_order [1, 2] [(3, [7]), (1, [5])] (by decide)⟩

/-- Claim C3 counterexample: the claim quantifies over every schedule merely
containing an insertion at an offset at or past the end of the origin and
asserts the output is the origin followed by the at-or-past-end insertions.
Origin `[5]` (length 1) with schedule `[(0, [9]), (1, [7])]` contains offset
`1 ≥ 1`; `execute` succeeds, but the output is `[9, 5, 7]` (the insertion at
offset 0 is interleaved before the origin), not `origin ++ [7] = [5, 7]`. -/
theorem c3_counterexample :
    ([5] : List Nat).length ≤ 1 ∧
    runBytes [5] [(0, [9]), (1, [7])] = (none, [9, 5, 7]) ∧
    [9, 5, 7] ≠ [5] ++ [7] :=
  ⟨by decide, by decide, by decide⟩

/-- Claim C3 (amended): for every origin of length `L` and every schedule of
insertions at distinct offsets that are all at least `L`, `execute` succeeds
and the output equals the origin followed by the contents of the insertions in
schedule (ascending offset) order. -/
theorem c3_past_end (ob : List Nat) (regs : List (Nat × List Nat))
    (_hdist : regs.Pairwise fun a b => a.1 ≠ b.1)
    (hpast : ∀ p ∈ regs, ob.length ≤ p.1) :
    runBytes ob regs = (none, ob ++ ((buildSchedule regs).map Prod.snd).flatten) := by
  rw [runBytes_eq, spliceGo_drop_eq ob (buildSchedule regs) 0
    (fun q hq => hpast q (buildSchedule_mem _ _ hq))]
  rfl

/-- Witness for C3 at a concrete input. -/
theorem c3_past_end_witness :
    ((([(3, [7]), (2, [9])]) : List (Nat × List Nat)).Pairwise fun a b => a.1 ≠ b.1) ∧
    (∀ p ∈ ([(3, [7]), (2, [9])] : List (Nat × List Nat)),
      ([1, 2] : List Nat).length ≤ p.1) ∧
    runBytes [1, 2] [(3, [7]), (2, [9])] =
      (none, [1, 2] ++ ((buildSchedule [(3, [7]), (2, [9])]).map Prod.snd).flatten) :=
  ⟨by decide, by decide,
    c3_past_end [1, 2] [(3, [7]), (2, [9])] (by decide) (by decide)⟩

/-- Claim C4: for every origin and an empty schedule, `execute` succeeds and
the bytes delivered to the sink equal the origin bytes exactly. -/
theorem c4_identity (ob : List Nat) : runBytes ob [] = (none, ob) := by
  rw [runBytes_eq]
  rw [buildSchedule]
  simp [spliceGo_nil]

/-- Claim C5: for every origin and registration list, `execute` succeeds and
its output decomposes as an alternation of origin gaps and insertion contents
in which the concatenation of the gaps is exactly the origin: every origin
byte is forwarded exactly once, in left-to-right order, and never re-read
after being forwarded. -/
theorem c5_monotone_consumption (ob : List Nat) (regs : List (Nat × List Nat)) :
    ∃ gaps : List (List Nat),
      gaps.length = (buildSchedule regs).length + 1 ∧
      gaps.flatten = ob ∧
      runBytes ob regs = (none, altJoin gaps ((buildSchedule regs).map Prod.snd)) := by
  obtain ⟨gaps, hlen, hflat, hgo⟩ := spliceGo_gaps ob (buildSchedule regs) 0
  refine ⟨gaps, hlen, by simpa using hflat, ?_⟩
  rw [runBytes_eq, hgo]

/-! Stepping through a fail-free prefix of the schedule. -/

theorem scriptFlat_append (a b : Script) :
    scriptFlat (a ++ b) = scriptFlat a ++ scriptFlat b := by
  simp [scriptFlat]

theorem failFree_append (a b : Script) :
    failFree (a ++ b) = (failFree a && failFree b) := by
  simp [failFree, List.all_append]

theorem executeLoop_append (tail : List (Nat × Script)) :
    ∀ (D : List (Nat × Script)) (O : Script) (idx : Nat) (sink ob : List Nat),
    failFree O = true → (∀ p ∈ D, failFree p.2 = true) →
    scriptFlat O = ob.drop idx → idx ≤ ob.length →
    ∃ O', executeLoop (D ++ tail) O idx sink =
        executeLoop tail O' (splicePart ob idx (mapFlat D)).2
          (sink ++ (splicePart ob idx (mapFlat D)).1) ∧
      failFree O' = true ∧
      scriptFlat O' = ob.drop (splicePart ob idx (mapFlat D)).2 ∧
      (splicePart ob idx (mapFlat D)).2 ≤ ob.length := by
  intro D
  induction D with
  | nil =>
    intro O idx sink ob hffO _ hflat hle
    refine ⟨O, ?_, hffO, ?_, ?_⟩
    · simp [mapFlat, splicePart]
    · simpa [mapFlat, splicePart] using hflat
    · simpa [mapFlat, splicePart] using hle
  | cons p rest ih =>
    obtain ⟨o, ins⟩ := p
    intro O idx sink ob hffO hffs hflat hle
    have hffins : failFree ins = true := hffs (o, ins) (by simp)
    have hffrest : ∀ q ∈ rest, failFree q.2 = true := fun q hq => hffs q (by simp [hq])
    have hfuel : (o - idx) + O.length < (o - idx) + O.length + 1 := by omega
    obtain ⟨O1, hrun1, hff1, hflat1⟩ :=
      gapLoop_ok ((o - idx) + O.length + 1) o idx O sink hffO hfuel
    have hOb : scriptBytes O = ob.length - idx := by
      rw [scriptBytes, hflat, List.length_drop]
    rw [hOb, hflat] at hrun1
    rw [hflat] at hflat1
    have hflat1' : scriptFlat O1 = ob.drop (idx + min (o - idx) (ob.length - idx)) := by
      rw [hflat1, List.drop_drop]
      rcases Nat.le_total (o - idx) (ob.length - idx) with hc | hc
      · rw [min_eq_left hc]
      · rw [min_eq_right hc]
        have h1 : ob.length ≤ idx + (o - idx) := by omega
        have h2 : ob.length ≤ idx + (ob.length - idx) := by omega
        rw [List.drop_eq_nil_of_le h1, List.drop_eq_nil_of_le h2]
    have hle2 : idx + min (o - idx) (ob.length - idx) ≤ ob.length := by
      rcases Nat.le_total (o - idx) (ob.length - idx) with hc | hc
      · rw [min_eq_left hc]; omega
      · rw [min_eq_right hc]; omega
    have hdfuel : scriptBytes ins + ins.length < scriptFuel ins := by
      rw [scriptFuel]; omega
    have hdrain := drainLoop_ok (scriptFuel ins) ins
      (sink ++ (ob.drop idx).take (o - idx)) hffins hdfuel
    obtain ⟨O', hrun2, hff2, hflat2, hle3⟩ :=
      ih O1 (idx + min (o - idx) (ob.length - idx))
        (sink ++ (ob.drop idx).take (o - idx) ++ scriptFlat ins) ob hff1 hffrest
        hflat1' hle2
    have hlg : ((ob.drop idx).take (o - idx)).length = min (o - idx) (ob.length - idx) := by
      rw [List.length_take, List.length_drop]
    have hstep1 : executeLoop (((o, ins) :: rest) ++ tail) O idx sink =
        match drainLoop (scriptFuel ins) ins (sink ++ (ob.drop idx).take (o - idx)) with
        | (some e, sink2) =>
          (some e, O1, idx + min (o - idx) (ob.length - idx), sink2)
        | (none, sink2) =>
          executeLoop (rest ++ tail) O1 (idx + min (o - idx) (ob.length - idx)) sink2 := by
      simp only [List.cons_append, executeLoop]
      rw [hrun1]
      rfl
    refine ⟨O', ?_, hff2, ?_, ?_⟩
    · calc executeLoop (((o, ins) :: rest) ++ tail) O idx sink
          = executeLoop (rest ++ tail) O1 (idx + min (o - idx) (ob.length - idx))
            (sink ++ (ob.drop idx).take (o - idx) ++ scriptFlat ins) := by
            rw [hstep1, hdrain]
        _ = executeLoop tail O'
              (splicePart ob (idx + min (o - idx) (ob.length - idx)) (mapFlat rest)).2
              (sink ++ (ob.drop idx).take (o - idx) ++ scriptFlat ins ++
                (splicePart ob (idx + min (o - idx) (ob.length - idx)) (mapFlat rest)).1) := by
            rw [hrun2]
        _ = executeLoop tail O' (splicePart ob idx (mapFlat ((o, ins) :: rest))).2
              (sink ++ (splicePart ob idx (mapFlat ((o, ins) :: rest))).1) := by
            simp only [mapFlat, List.map_cons, splicePart_cons, hlg]
            simp [List.append_assoc, mapFlat]
    · rw [hflat2]
      simp only [mapFlat, List.map_cons, splicePart_cons, hlg]
    · simpa only [mapFlat, List.map_cons, splicePart_cons, hlg] using hle3

theorem foldl_insert_eq (origin : Script) (target : List Nat)
    (regs : List (Nat × Script)) :
    regs.foldl (fun i p => i.insert p.1 p.2) (Inserter.new origin target) =
      ⟨origin, buildSchedule regs, target⟩ := by
  have hgen : ∀ (rs : List (Nat × Script)) (st : Inserter),
      rs.foldl (fun i p => i.insert p.1 p.2) st =
        ⟨st.origin, rs.foldl (fun m p => btInsert p.1 p.2 m) st.insertions,
          st.target⟩ := by
    intro rs
    induction rs with
    | nil => intro st; rfl
    | cons p rest ih =>
      intro st
      simp only [List.foldl_cons]
      rw [ih]
      rfl
  rw [hgen]
  rfl

theorem mapFlat_buildSchedule (regs : List (Nat × Script)) :
    mapFlat (buildSchedule regs) =
      buildSchedule (regs.map fun p => (p.1, scriptFlat p.2)) := by
  rw [mapFlat, buildSchedule, buildSchedule, foldl_btInsert_map]
  rfl

instance sortedKeysDecidable {α : Type} (l : List (Nat × α)) :
    Decidable (sortedKeys l) := by
  unfold sortedKeys
  infer_instance

/-- Claim C6: a read returning the transient `Interrupted` condition, from the
origin or from any insertion producer, is reissued with no progress counted
and no failure; producers that interleave `Interrupted` results with
successful reads complete `execute` successfully with exactly the same output
as uninterrupted in-memory producers delivering the same bytes. -/
theorem c6_interrupted_retry (origin : Script) (regs : List (Nat × Script))
    (hO : failFree origin = true) (hins : ∀ p ∈ regs, failFree p.2 = true) :
    (regs.foldl (fun i p => i.insert p.1 p.2) (Inserter.new origin [])).execute =
      (none, spliceGo (scriptFlat origin) 0
        (buildSchedule (regs.map fun p => (p.1, scriptFlat p.2)))) ∧
    (regs.foldl (fun i p => i.insert p.1 p.2) (Inserter.new origin [])).execute =
      runBytes (scriptFlat origin) (regs.map fun p => (p.1, scriptFlat p.2)) := by
  have hins2 : ∀ p ∈ buildSchedule regs, failFree p.2 = true :=
    fun p hp => hins p (buildSchedule_mem _ _ hp)
  have h1 : (regs.foldl (fun i p => i.insert p.1 p.2) (Inserter.new origin [])).execute =
      (none, spliceGo (scriptFlat origin) 0
        (buildSchedule (regs.map fun p => (p.1, scriptFlat p.2)))) := by
    rw [foldl_insert_eq, execute_ok origin (buildSchedule regs) [] hO hins2,
      mapFlat_buildSchedule]
    simp
  exact ⟨h1, by rw [h1, runBytes_eq]⟩

/-- Witness for C6: origin and insertion scripts interleaving interruptions
with deliveries. -/
theorem c6_interrupted_retry_witness :
    failFree [Ev.int, Ev.chunk 1 [2], Ev.int] = true ∧
    (∀ p ∈ ([(1, [Ev.int, Ev.chunk 9 []])] : List (Nat × Script)),
      failFree p.2 = true) ∧
    ((([(1, [Ev.int, Ev.chunk 9 []])] : List (Nat × Script)).foldl
        (fun i p => i.insert p.1 p.2)
        (Inserter.new [Ev.int, Ev.chunk 1 [2], Ev.int] [])).execute =
      (none, spliceGo (scriptFlat [Ev.int, Ev.chunk 1 [2], Ev.int]) 0
        (buildSchedule (([(1, [Ev.int, Ev.chunk 9 []])] : List (Nat × Script)).map
          fun p => (p.1, scriptFlat p.2))))) ∧
    (([(1, [Ev.int, Ev.chunk 9 []])] : List (Nat × Script)).foldl
        (fun i p => i.insert p.1 p.2)
        (Inserter.new [Ev.int, Ev.chunk 1 [2], Ev.int] [])).execute =
      runBytes (scriptFlat [Ev.int, Ev.chunk 1 [2], Ev.int])
        (([(1, [Ev.int, Ev.chunk 9 []])] : List (Nat × Script)).map
          fun p => (p.1, scriptFlat p.2)) :=
  ⟨by decide, by decide,
    c6_interrupted_retry [Ev.int, Ev.chunk 1 [2], Ev.int]
      [(1, [Ev.int, Ev.chunk 9 []])] (by decide) (by decide)⟩

/-! Failure propagation helpers. -/

theorem execute_fail_in_insertion (O : Script) (D R : List (Nat × Script)) (o : Nat)
    (pre post : Script) (e : Nat)
    (hO : failFree O = true) (hD : ∀ p ∈ D, failFree p.2 = true)
    (hpre : failFree pre = true) :
    Inserter.execute ⟨O, D ++ (o, pre ++ Ev.fail e :: post) :: R, []⟩ =
      (some e,
        (splicePart (scriptFlat O) 0 (mapFlat D)).1 ++
        ((scriptFlat O).drop (splicePart (scriptFlat O) 0 (mapFlat D)).2).take
          (o - (splicePart (scriptFlat O) 0 (mapFlat D)).2) ++
        scriptFlat pre) := by
  obtain ⟨O', hrunD, hffO', hflatO', hleD⟩ :=
    executeLoop_append ((o, pre ++ Ev.fail e :: post) :: R) D O 0 [] (scriptFlat O)
      hO hD (by simp) (by simp)
  obtain ⟨P1, P2, hP⟩ : ∃ P1 P2, splicePart (scriptFlat O) 0 (mapFlat D) = (P1, P2) :=
    ⟨_, _, rfl⟩
  simp only [hP] at hrunD hflatO' hleD ⊢
  obtain ⟨O2, hgap, hffO2, hflatO2⟩ :=
    gapLoop_ok ((o - P2) + O'.length + 1) o P2 O' ([] ++ P1) hffO' (by omega)
  rw [hflatO'] at hgap
  have hdfuel : scriptBytes pre + pre.length < scriptFuel (pre ++ Ev.fail e :: post) := by
    have h1 : scriptBytes (pre ++ Ev.fail e :: post) =
        scriptBytes pre + scriptBytes (Ev.fail e :: post) := by
      rw [scriptBytes, scriptFlat_append, List.length_append]
      rfl
    have h2 : (pre ++ Ev.fail e :: post).length = pre.length + post.length + 1 := by
      simp only [List.length_append, List.length_cons]
      omega
    rw [scriptFuel, h1, h2]
    omega
  have hdrain := drainLoop_fail (scriptFuel (pre ++ Ev.fail e :: post)) pre e post
    (([] ++ P1) ++ ((scriptFlat O).drop P2).take (o - P2)) hpre hdfuel
  have hstep1 : executeLoop ((o, pre ++ Ev.fail e :: post) :: R) O' P2 ([] ++ P1) =
      match drainLoop (scriptFuel (pre ++ Ev.fail e :: post)) (pre ++ Ev.fail e :: post)
        (([] ++ P1) ++ ((scriptFlat O).drop P2).take (o - P2)) with
      | (some e2, sink2) =>
        (some e2, O2, P2 + min (o - P2) (scriptBytes O'), sink2)
      | (none, sink2) =>
        executeLoop R O2 (P2 + min (o - P2) (scriptBytes O')) sink2 := by
    simp only [executeLoop]
    rw [hgap]
  have hstep2 : executeLoop ((o, pre ++ Ev.fail e :: post) :: R) O' P2 ([] ++ P1) =
      (some e, O2, P2 + min (o - P2) (scriptBytes O'),
        (([] ++ P1) ++ ((scriptFlat O).drop P2).take (o - P2)) ++ scriptFlat pre) := by
    rw [hstep1, hdrain]
  have hfinal : Inserter.execute ⟨O, D ++ (o, pre ++ Ev.fail e :: post) :: R, []⟩ =
      (some e, (([] ++ P1) ++ ((scriptFlat O).drop P2).take (o - P2)) ++ scriptFlat pre) := by
    simp only [Inserter.execute]
    rw [hrunD, hstep2]
  rw [hfinal]
  simp [List.append_assoc]

theorem executeLoop_origin_fail : ∀ (sched : List (Nat × Script)) (pre : Script)
    (e : Nat) (post : Script) (idx : Nat) (sink ob : List Nat),
    failFree pre = true → (∀ p ∈ sched, failFree p.2 = true) →
    scriptFlat pre = ob.drop idx → idx ≤ ob.length →
    (∃ pre', executeLoop sched (pre ++ Ev.fail e :: post) idx sink =
        (none, pre' ++ Ev.fail e :: post, (splicePart ob idx (mapFlat sched)).2,
          sink ++ (splicePart ob idx (mapFlat sched)).1) ∧
      failFree pre' = true ∧
      scriptFlat pre' = ob.drop (splicePart ob idx (mapFlat sched)).2 ∧
      (splicePart ob idx (mapFlat sched)).2 ≤ ob.length ∧
      spliceFail ob idx (mapFlat sched) =
        (splicePart ob idx (mapFlat sched)).1 ++
          ob.drop (splicePart ob idx (mapFlat sched)).2) ∨
    (∃ s2 i2, executeLoop sched (pre ++ Ev.fail e :: post) idx sink =
        (some e, s2, i2, sink ++ spliceFail ob idx (mapFlat sched))) := by
  intro sched
  induction sched with
  | nil =>
    intro pre e post idx sink ob hpre _ hflat hle
    left
    refine ⟨pre, ?_, hpre, ?_, ?_, ?_⟩
    · simp [executeLoop, mapFlat, splicePart]
    · simpa [mapFlat, splicePart] using hflat
    · simpa [mapFlat, splicePart] using hle
    · simp [mapFlat, splicePart, spliceFail]
  | cons p rest ih =>
    obtain ⟨o, ins⟩ := p
    intro pre e post idx sink ob hpre hsched hflat hle
    have hffins : failFree ins = true := hsched (o, ins) (by simp)
    have hffrest : ∀ q ∈ rest, failFree q.2 = true := fun q hq => hsched q (by simp [hq])
    have hOb : scriptBytes pre = ob.length - idx := by
      rw [scriptBytes, hflat, List.length_drop]
    by_cases ho : o ≤ ob.length
    · -- the gap is filled inside the fail-free part of the origin
      have hgaple : o - idx ≤ scriptBytes pre := by rw [hOb]; omega
      have hfuel : (o - idx) + pre.length <
          (o - idx) + (pre ++ Ev.fail e :: post).length + 1 := by
        simp only [List.length_append, List.length_cons]
        omega
      obtain ⟨pre1, hgap, hffp1, hflatp1⟩ :=
        gapLoop_covered ((o - idx) + (pre ++ Ev.fail e :: post).length + 1) o idx
          pre (Ev.fail e :: post) sink hpre hgaple hfuel
      have hg : (scriptFlat pre).take (o - idx) = (ob.drop idx).take (o - idx) := by
        rw [hflat]
      have hglen : ((ob.drop idx).take (o - idx)).length = o - idx := by
        rw [List.length_take, List.length_drop]
        have hA : o - idx ≤ ob.length - idx := by omega
        rw [min_eq_left hA]
      have hflatp1' : scriptFlat pre1 = ob.drop (idx + (o - idx)) := by
        rw [hflatp1, hflat, List.drop_drop]
      have hle1 : idx + (o - idx) ≤ ob.length := by omega
      have hdrain := drainLoop_ok (scriptFuel ins) ins
        (sink ++ (ob.drop idx).take (o - idx)) hffins (by rw [scriptFuel]; omega)
      have hstep1 : executeLoop ((o, ins) :: rest) (pre ++ Ev.fail e :: post) idx sink =
          match drainLoop (scriptFuel ins) ins
            (sink ++ (scriptFlat pre).take (o - idx)) with
          | (some e2, sink2) =>
            (some e2, pre1 ++ Ev.fail e :: post, idx + (o - idx), sink2)
          | (none, sink2) =>
            executeLoop rest (pre1 ++ Ev.fail e :: post) (idx + (o - idx)) sink2 := by
        simp only [executeLoop]
        rw [hgap]
      have hstep : executeLoop ((o, ins) :: rest) (pre ++ Ev.fail e :: post) idx sink =
          executeLoop rest (pre1 ++ Ev.fail e :: post) (idx + (o - idx))
            (sink ++ (ob.drop idx).take (o - idx) ++ scriptFlat ins) := by
        rw [hstep1, hg, hdrain]
      obtain hrest | hrest := ih pre1 e post (idx + (o - idx))
        (sink ++ (ob.drop idx).take (o - idx) ++ scriptFlat ins) ob hffp1 hffrest
        hflatp1' hle1
      · -- no origin read past the delivered bytes while handling the rest
        obtain ⟨pre', hrun, hffp', hflatp', hlep', hsf⟩ := hrest
        left
        refine ⟨pre', ?_, hffp', ?_, ?_, ?_⟩
        · rw [hstep, hrun]
          simp only [mapFlat_cons, splicePart_cons, hglen]
          simp [List.append_assoc]
        · simp only [mapFlat_cons, splicePart_cons, hglen]
          exact hflatp'
        · simp only [mapFlat_cons, splicePart_cons, hglen]
          exact hlep'
        · simp only [mapFlat_cons, splicePart_cons, hglen]
          rw [spliceFail_cons, if_pos ho, hglen, hsf]
          simp [List.append_assoc]
      · -- the failing read was reached while handling the rest
        obtain ⟨s2, i2, hrun⟩ := hrest
        right
        refine ⟨s2, i2, ?_⟩
        rw [hstep, hrun]
        simp only [mapFlat_cons]
        rw [spliceFail_cons, if_pos ho, hglen]
        simp [List.append_assoc]
    · -- the gap for this offset needs more bytes than the origin delivers
      push_neg at ho
      have hidxlt : idx + scriptBytes pre < o := by rw [hOb]; omega
      have hfuelf : scriptBytes pre + pre.length <
          (o - idx) + (pre ++ Ev.fail e :: post).length + 1 := by
        simp only [List.length_append, List.length_cons]
        omega
      have hgap := gapLoop_fail ((o - idx) + (pre ++ Ev.fail e :: post).length + 1) o idx
        pre e post sink hpre hidxlt hfuelf
      right
      refine ⟨post, idx + scriptBytes pre, ?_⟩
      have hstep : executeLoop ((o, ins) :: rest) (pre ++ Ev.fail e :: post) idx sink =
          (some e, post, idx + scriptBytes pre, sink ++ scriptFlat pre) := by
        simp only [executeLoop]
        rw [hgap]
      rw [hstep, hflat]
      simp only [mapFlat_cons]
      rw [spliceFail_cons, if_neg (by omega)]

theorem execute_fail_in_origin_general (pre post : Script) (e : Nat)
    (sched : List (Nat × Script))
    (hpre : failFree pre = true) (hsched : ∀ p ∈ sched, failFree p.2 = true) :
    Inserter.execute ⟨pre ++ Ev.fail e :: post, sched, []⟩ =
      (some e, spliceFail (scriptFlat pre) 0 (mapFlat sched)) := by
  obtain h | h := executeLoop_origin_fail sched pre e post 0 [] (scriptFlat pre)
    hpre hsched (by simp) (by simp)
  · obtain ⟨pre', hrun, hffp', hflatp', hlep', hsf⟩ := h
    have hdfuel : scriptBytes pre' + pre'.length <
        scriptFuel (pre' ++ Ev.fail e :: post) := by
      have h1 : scriptBytes (pre' ++ Ev.fail e :: post) =
          scriptBytes pre' + scriptBytes (Ev.fail e :: post) := by
        rw [scriptBytes, scriptFlat_append, List.length_append]
        rfl
      have h2 : (pre' ++ Ev.fail e :: post).length = pre'.length + post.length + 1 := by
        simp only [List.length_append, List.length_cons]
        omega
      rw [scriptFuel, h1, h2]
      omega
    have hdrain := drainLoop_fail (scriptFuel (pre' ++ Ev.fail e :: post)) pre' e post
      ([] ++ (splicePart (scriptFlat pre) 0 (mapFlat sched)).1) hffp' hdfuel
    have hstep : Inserter.execute ⟨pre ++ Ev.fail e :: post, sched, []⟩ =
        match drainLoop (scriptFuel (pre' ++ Ev.fail e :: post))
          (pre' ++ Ev.fail e :: post)
          ([] ++ (splicePart (scriptFlat pre) 0 (mapFlat sched)).1) with
        | (some e2, sink2) => (some e2, sink2)
        | (none, sink2) => (none, sink2) := by
      simp only [Inserter.execute]
      rw [hrun]
    rw [hstep, hdrain, hflatp', hsf]
    simp
  · obtain ⟨s2, i2, hrun⟩ := h
    have hstep : Inserter.execute ⟨pre ++ Ev.fail e :: post, sched, []⟩ =
        (some e, [] ++ spliceFail (scriptFlat pre) 0 (mapFlat sched)) := by
      simp only [Inserter.execute]
      rw [hrun]
    rw [hstep]
    simp

/-- Claim C7: a non-retryable read error from an insertion producer or from the
origin is surfaced by `execute` immediately as its return value; no further
bytes are emitted after the failure (neither from the failing producer's
remaining script, nor from later insertions, nor from the origin tail), and
every byte written to the sink before the failure remains in the sink.  The
first conjunct places the failing read inside an insertion producer, after an
arbitrary fail-free schedule prefix and with an arbitrary fail-free origin.
The second places it in the origin, under an arbitrary schedule of fail-free
insertions: whichever read of the origin reaches the failure — in the gap
before any scheduled insertion, or in the final tail drain (in particular
with an empty schedule) — the error is returned and the sink holds exactly
the bytes spliced before that read, as described by `spliceFail`. -/
theorem c7_error_surfacing :
    (∀ (O : Script) (D R : List (Nat × Script)) (o : Nat) (pre post : Script) (e : Nat),
      failFree O = true → (∀ p ∈ D, failFree p.2 = true) → failFree pre = true →
      sortedKeys (D ++ (o, pre ++ Ev.fail e :: post) :: R) →
      Inserter.execute ⟨O, D ++ (o, pre ++ Ev.fail e :: post) :: R, []⟩ =
        (some e,
          (splicePart (scriptFlat O) 0 (mapFlat D)).1 ++
          ((scriptFlat O).drop (splicePart (scriptFlat O) 0 (mapFlat D)).2).take
            (o - (splicePart (scriptFlat O) 0 (mapFlat D)).2) ++
          scriptFlat pre)) ∧
    (∀ (pre post : Script) (e : Nat) (sched : List (Nat × Script)),
      failFree pre = true → (∀ p ∈ sched, failFree p.2 = true) →
      Inserter.execute ⟨pre ++ Ev.fail e :: post, sched, []⟩ =
        (some e, spliceFail (scriptFlat pre) 0 (mapFlat sched))) := by
  constructor
  · intro O D R o pre post e hO hD hpre _hsorted
    exact execute_fail_in_insertion O D R o pre post e hO hD hpre
  · intro pre post e sched hpre hsched
    exact execute_fail_in_origin_general pre post e sched hpre hsched

/-- Witness for C7: concrete failing runs for both conjuncts; the origin-side
run has one insertion delivered before the failing read and one whose gap
reaches it. -/
theorem c7_error_surfacing_witness :
    Inserter.execute ⟨[Ev.chunk 1 []], [] ++ (1, [] ++ Ev.fail 7 :: [Ev.chunk 9 []]) :: [], []⟩ =
      (some 7,
        (splicePart (scriptFlat [Ev.chunk 1 []]) 0 (mapFlat [])).1 ++
        ((scriptFlat [Ev.chunk 1 []]).drop
          (splicePart (scriptFlat [Ev.chunk 1 []]) 0 (mapFlat [])).2).take
          (1 - (splicePart (scriptFlat [Ev.chunk 1 []]) 0 (mapFlat [])).2) ++
        scriptFlat []) ∧
    Inserter.execute ⟨[Ev.chunk 5 []] ++ Ev.fail 3 :: [],
        [(1, [Ev.chunk 8 []]), (7, [Ev.chunk 6 []])], []⟩ =
      (some 3, spliceFail (scriptFlat [Ev.chunk 5 []]) 0
        (mapFlat [(1, [Ev.chunk 8 []]), (7, [Ev.chunk 6 []])])) :=
  ⟨c7_error_surfacing.1 [Ev.chunk 1 []] [] [] 1 [] [Ev.chunk 9 []] 7
      (by decide) (by decide) (by decide) (by decide),
    c7_error_surfacing.2 [Ev.chunk 5 []] [] 3
      [(1, [Ev.chunk 8 []]), (7, [Ev.chunk 6 []])]
      (by decide) (by decide)⟩

/-! UTF-8 validation, mirroring the acceptance rules of `String::from_utf8`
in the Rust standard library, and the model of `StringInserter`
(`src/string_inserter.rs`). -/

/-- Continuation byte, `0x80 ..= 0xBF`. -/
def isCont (b : Nat) : Bool := 0x80 ≤ b && b ≤ 0xBF

/-- One-byte-at-a-time UTF-8 acceptance state: `need` is the number of
continuation bytes still expected (0 at a character start), and the next
byte must lie in `lo ..= hi`; after it, any further expected continuation
bytes must lie in `80 ..= BF`.  Returns the final state, or `none` on a
malformed byte.  The transitions mirror the acceptance rules of
`String::from_utf8` in the Rust standard library: ASCII bytes stand alone;
leads `C2 ..= DF`, `E0 ..= EF`, `F0 ..= F4` start sequences of length
2, 3, 4, where lead `E0` restricts the next byte to `A0 ..= BF` (no
overlong forms), `ED` to `80 ..= 9F` (no surrogate values), `F0` to
`90 ..= BF` (no overlong forms) and `F4` to `80 ..= 8F` (codepoints at
most `U+10FFFF`); bytes `80 ..= C1` and `F5 ..= FF` never start a
character. -/
def utf8Step : Nat → Nat → Nat → Nat → Option (Nat × Nat × Nat)
  | 0, _, _, b =>
    if b < 0x80 then some (0, 0, 0)
    else if b < 0xC2 then none
    else if b < 0xE0 then some (1, 0x80, 0xBF)
    else if b = 0xE0 then some (2, 0xA0, 0xBF)
    else if b = 0xED then some (2, 0x80, 0x9F)
    else if b < 0xF0 then some (2, 0x80, 0xBF)
    else if b = 0xF0 then some (3, 0x90, 0xBF)
    else if b < 0xF4 then some (3, 0x80, 0xBF)
    else if b = 0xF4 then some (3, 0x80, 0x8F)
    else none
  | need2 + 1, lo, hi, b =>
    if lo ≤ b && b ≤ hi then some (need2, 0x80, 0xBF)
    else none

/-- Folding the per-byte transition over a byte list. -/
def utf8State : Nat → Nat → Nat → List Nat → Option (Nat × Nat × Nat)
  | need, lo, hi, [] => some (need, lo, hi)
  | need, lo, hi, b :: l =>
    match utf8Step need lo hi b with
    | none => none
    | some (n2, l2, h2) => utf8State n2 l2 h2 l

/-- A final validator state is accepting when no continuation bytes are
pending and no error occurred. -/
def stateOK : Option (Nat × Nat × Nat) → Bool
  | some (0, _, _) => true
  | _ => false

/-- UTF-8 validity of a byte list, the check of `String::from_utf8`. -/
def utf8Valid (l : List Nat) : Bool := stateOK (utf8State 0 0 0 l)

/-- Model of the `Error` enum of `src/string_inserter.rs`: a propagated
I/O error or the `FromUtf8Error` of the final validation. -/
inductive StringError where
  | ioError : Nat → StringError
  | utf8Error : StringError
deriving DecidableEq, Repr

/-- Model of `StringInserter::execute`: strings are modelled by their UTF-8
byte lists.  The insertion vector is registered in order into a byte-level
`Inserter` over in-memory producers with an initially empty in-memory sink;
an I/O error is converted into `Error::IoError`, and on success the output
bytes are re-validated as text (`String::from_utf8`), failing with
`Error::Utf8Error` when they are not well-formed UTF-8. -/
def stringExecute (origin : List Nat) (insertions : List (Nat × List Nat)) :
    Except StringError (List Nat) :=
  match runBytes origin insertions with
  | (some e, _) => Except.error (StringError.ioError e)
  | (none, out) =>
    if utf8Valid out then Except.ok out
    else Except.error StringError.utf8Error

/-- Position `p` is a character boundary of `ob`: the bytes before and
after `p` are both well-formed UTF-8. -/
def charBoundary (ob : List Nat) (p : Nat) : Bool :=
  utf8Valid (ob.take p) && utf8Valid (ob.drop p)


/-! Compositional facts about the UTF-8 acceptance state machine. -/

theorem utf8State_cons (need lo hi b : Nat) (l : List Nat) :
    utf8State need lo hi (b :: l) =
      match utf8Step need lo hi b with
      | none => none
      | some (n2, l2, h2) => utf8State n2 l2 h2 l := rfl

theorem utf8State_append : ∀ (a : List Nat) (need lo hi : Nat) (t : List Nat),
    utf8State need lo hi (a ++ t) =
      match utf8State need lo hi a with
      | none => none
      | some (n2, l2, h2) => utf8State n2 l2 h2 t := by
  intro a
  induction a with
  | nil =>
    intro need lo hi t
    simp [utf8State]
  | cons b a2 ih =>
    intro need lo hi t
    rw [List.cons_append, utf8State_cons, utf8State_cons]
    rcases hstep : utf8Step need lo hi b with _ | ⟨n2, l2, h2⟩
    · rfl
    · exact ih n2 l2 h2 t

theorem utf8Step_wf (need lo hi b n2 l2 h2 : Nat)
    (h : utf8Step need lo hi b = some (n2, l2, h2)) :
    n2 = 0 ∨ (0x80 ≤ l2 ∧ h2 ≤ 0xBF) := by
  match need with
  | 0 =>
    rw [utf8Step] at h
    split_ifs at h <;>
      (simp only [Option.some.injEq, Prod.mk.injEq] at h
       omega)
  | need2 + 1 =>
    rw [utf8Step] at h
    split_ifs at h
    simp only [Option.some.injEq, Prod.mk.injEq] at h
    omega

theorem utf8State_wf : ∀ (a : List Nat) (need lo hi n2 l2 h2 : Nat),
    (need = 0 ∨ (0x80 ≤ lo ∧ hi ≤ 0xBF)) →
    utf8State need lo hi a = some (n2, l2, h2) →
    (n2 = 0 ∨ (0x80 ≤ l2 ∧ h2 ≤ 0xBF)) := by
  intro a
  induction a with
  | nil =>
    intro need lo hi n2 l2 h2 hwf h
    simp only [utf8State, Option.some.injEq, Prod.mk.injEq] at h
    obtain ⟨e1, e2, e3⟩ := h
    subst e1
    subst e2
    subst e3
    exact hwf
  | cons b a2 ih =>
    intro need lo hi n2 l2 h2 _hwf h
    rw [utf8State_cons] at h
    rcases hstep : utf8Step need lo hi b with _ | ⟨m, ml, mh⟩
    · rw [hstep] at h
      simp at h
    · rw [hstep] at h
      exact ih m ml mh n2 l2 h2 (utf8Step_wf need lo hi b m ml mh hstep) h

theorem stateOK_state_zero (lo hi lo2 hi2 : Nat) (l : List Nat) :
    stateOK (utf8State 0 lo hi l) = stateOK (utf8State 0 lo2 hi2 l) := by
  cases l with
  | nil => rfl
  | cons b l2 => rfl

theorem utf8Valid_append (a t : List Nat) (ha : utf8Valid a = true) :
    utf8Valid (a ++ t) = utf8Valid t := by
  rw [utf8Valid] at ha
  rw [utf8Valid, utf8State_append]
  rcases hst : utf8State 0 0 0 a with _ | ⟨n2, l2, h2⟩
  · rw [hst] at ha
    simp [stateOK] at ha
  · rw [hst] at ha
    cases n2 with
    | zero =>
      show stateOK (utf8State 0 l2 h2 t) = utf8Valid t
      rw [stateOK_state_zero l2 h2 0 0, utf8Valid]
    | succ n =>
      simp [stateOK] at ha

theorem utf8Valid_extend_invalid (a : List Nat) (s : Nat) (t : List Nat)
    (ha : utf8Valid a = false) (hs : isCont s = false) :
    utf8Valid (a ++ s :: t) = false := by
  rw [utf8Valid] at ha
  rw [utf8Valid, utf8State_append]
  rcases hst : utf8State 0 0 0 a with _ | ⟨n2, l2, h2⟩
  · rfl
  · rw [hst] at ha
    cases n2 with
    | zero => simp [stateOK] at ha
    | succ n =>
      show stateOK (utf8State (n + 1) l2 h2 (s :: t)) = false
      have hwf := utf8State_wf a 0 0 0 (n + 1) l2 h2 (Or.inl rfl) hst
      have hrange : 0x80 ≤ l2 ∧ h2 ≤ 0xBF := by
        rcases hwf with hn | hr
        · exact absurd hn (by omega)
        · exact hr
      have hs2 : s < 0x80 ∨ 0xBF < s := by
        by_contra hc
        push_neg at hc
        have hcont : isCont s = true := by
          rw [isCont]
          simp only [Bool.and_eq_true, decide_eq_true_eq]
          omega
        rw [hcont] at hs
        cases hs
      have hcond : (l2 ≤ s && s ≤ h2) = false := by
        simp only [Bool.and_eq_false_iff, decide_eq_false_iff_not]
        omega
      have hstep : utf8Step (n + 1) l2 h2 s = none := by
        rw [utf8Step, hcond]
        rfl
      rw [utf8State_cons, hstep]
      rfl

theorem utf8Valid_head_not_cont (b : Nat) (l : List Nat)
    (h : utf8Valid (b :: l) = true) : isCont b = false := by
  by_contra hc
  rw [Bool.not_eq_false] at hc
  have hr : 0x80 ≤ b ∧ b ≤ 0xBF := by
    rw [isCont] at hc
    simpa [Bool.and_eq_true, decide_eq_true_eq] using hc
  have h1 : ¬ b < 0x80 := by omega
  have h2 : b < 0xC2 := by omega
  have hstep : utf8Step 0 0 0 b = none := by
    rw [utf8Step]
    rw [if_neg h1, if_pos h2]
  rw [utf8Valid, utf8State_cons, hstep] at h
  simp [stateOK] at h

theorem utf8Valid_nil : utf8Valid [] = true := rfl

theorem take_min_length {α : Type} (l : List α) (k : Nat) :
    l.take (min k l.length) = l.take k := by
  rcases Nat.le_total k l.length with h | h
  · rw [min_eq_left h]
  · rw [min_eq_right h, List.take_length, List.take_of_length_le h]

theorem slice_merge (ob : List Nat) (q idx K : Nat) (hq : q ≤ idx) :
    (ob.drop q).take (idx - q) ++ (ob.drop idx).take K =
      (ob.drop q).take ((idx - q) + K) := by
  rw [List.take_add, List.drop_drop]
  have h : q + (idx - q) = idx := by omega
  rw [h]

theorem spliceGo_utf8Valid (ob : List Nat) (hob : utf8Valid ob = true) :
    ∀ (sched : List (Nat × List Nat)) (idx : Nat),
    idx ≤ ob.length →
    utf8Valid (ob.take idx) = true →
    (∀ p ∈ sched, utf8Valid p.2 = true ∧ charBoundary ob p.1 = true) →
    utf8Valid (spliceGo ob idx sched) = true := by
  intro sched
  induction sched with
  | nil =>
    intro idx _ hidx _
    rw [spliceGo_nil]
    have h1 : utf8Valid (ob.take idx ++ ob.drop idx) = utf8Valid (ob.drop idx) :=
      utf8Valid_append _ _ hidx
    rw [List.take_append_drop] at h1
    rw [← h1]
    exact hob
  | cons p rest ih =>
    obtain ⟨o, ins⟩ := p
    intro idx hle hidx hall
    obtain ⟨hins, hbound⟩ := hall (o, ins) (List.mem_cons_self _ _)
    have hbo : utf8Valid (ob.take o) = true := by
      rw [charBoundary, Bool.and_eq_true] at hbound
      exact hbound.1
    rw [spliceGo_cons]
    have hlg : ((ob.drop idx).take (o - idx)).length = min (o - idx) (ob.length - idx) := by
      rw [List.length_take, List.length_drop]
    have hle2 : idx + ((ob.drop idx).take (o - idx)).length ≤ ob.length := by
      rw [hlg]
      rcases Nat.le_total (o - idx) (ob.length - idx) with h | h
      · rw [min_eq_left h]; omega
      · rw [min_eq_right h]; omega
    have hidx2 : utf8Valid (ob.take (idx + ((ob.drop idx).take (o - idx)).length)) = true := by
      by_cases h1 : o ≤ idx
      · have hz : ((ob.drop idx).take (o - idx)).length = 0 := by
          rw [hlg]; omega
        rw [hz]
        simpa using hidx
      · by_cases h2 : o ≤ ob.length
        · have heq : idx + ((ob.drop idx).take (o - idx)).length = o := by
            rw [hlg]
            have hm : min (o - idx) (ob.length - idx) = o - idx := by
              rw [min_eq_left (by omega)]
            rw [hm]; omega
          rw [heq]
          exact hbo
        · have heq : idx + ((ob.drop idx).take (o - idx)).length = ob.length := by
            rw [hlg]
            have hm : min (o - idx) (ob.length - idx) = ob.length - idx := by
              rw [min_eq_right (by omega)]
            rw [hm]; omega
          rw [heq, List.take_length]
          exact hob
    have hsplit : ob.take (idx + ((ob.drop idx).take (o - idx)).length) =
        ob.take idx ++ (ob.drop idx).take (o - idx) := by
      rw [List.take_add]
      congr 1
      rw [hlg]
      have h5 := take_min_length (ob.drop idx) (o - idx)
      rw [List.length_drop] at h5
      exact h5
    have hg : utf8Valid ((ob.drop idx).take (o - idx)) = true := by
      rw [hsplit] at hidx2
      rw [utf8Valid_append _ _ hidx] at hidx2
      exact hidx2
    rw [List.append_assoc, utf8Valid_append _ _ hg, utf8Valid_append _ _ hins]
    exact ih (idx + ((ob.drop idx).take (o - idx)).length) hle2 hidx2
      fun p hp => hall p (List.mem_cons_of_mem _ hp)

/-- Claim C8: for every text origin and list of text insertions whose
offsets all fall on UTF-8 character boundaries of the origin, the text
adapter's `execute` returns `Ok` with a string whose UTF-8 encoding equals
the output of the byte-level splice of the same origin bytes and insertion
bytes, and the byte-level splice itself reports no error. -/
theorem c8_text_round_trip (ob : List Nat) (ins : List (Nat × List Nat))
    (hob : utf8Valid ob = true)
    (hins : ∀ p ∈ ins, utf8Valid p.2 = true ∧ charBoundary ob p.1 = true) :
    stringExecute ob ins = Except.ok (runBytes ob ins).2 ∧
      (runBytes ob ins).1 = none := by
  have hrun := runBytes_eq ob ins
  have hvalid : utf8Valid (spliceGo ob 0 (buildSchedule ins)) = true := by
    apply spliceGo_utf8Valid ob hob (buildSchedule ins) 0 (by omega)
      (by rw [List.take_zero]; rfl)
    intro p hp
    exact hins p (buildSchedule_mem _ _ hp)
  have hse : stringExecute ob ins =
      (if utf8Valid (spliceGo ob 0 (buildSchedule ins)) then
        Except.ok (spliceGo ob 0 (buildSchedule ins))
      else Except.error StringError.utf8Error) := by
    unfold stringExecute
    rw [hrun]
  constructor
  · rw [hse, hvalid, hrun]
    simp
  · rw [hrun]

/-- Witness for C8 at a concrete input: origin "a¢" with insertion "X" at
the boundary offset 1. -/
theorem c8_text_round_trip_witness :
    utf8Valid [0x61, 0xC2, 0xA2] = true ∧
    (∀ p ∈ ([(1, [0x58])] : List (Nat × List Nat)),
      utf8Valid p.2 = true ∧ charBoundary [0x61, 0xC2, 0xA2] p.1 = true) ∧
    (stringExecute [0x61, 0xC2, 0xA2] [(1, [0x58])] =
        Except.ok (runBytes [0x61, 0xC2, 0xA2] [(1, [0x58])]).2 ∧
      (runBytes [0x61, 0xC2, 0xA2] [(1, [0x58])]).1 = none) :=
  ⟨by decide, by decide,
    c8_text_round_trip [0x61, 0xC2, 0xA2] [(1, [0x58])] (by decide) (by decide)⟩

theorem spliceGo_utf8_invalid (ob : List Nat) (hob : utf8Valid ob = true) :
    ∀ (sched : List (Nat × List Nat)) (q idx : Nat),
    q ≤ idx → idx ≤ ob.length →
    utf8Valid (ob.take q) = true →
    sortedKeys sched →
    (∀ p ∈ sched, idx ≤ p.1 ∧ utf8Valid p.2 = true) →
    (∃ p ∈ sched, p.2 ≠ [] ∧ utf8Valid (ob.take p.1) = false) →
    utf8Valid ((ob.drop q).take (idx - q) ++ spliceGo ob idx sched) = false := by
  intro sched
  induction sched with
  | nil =>
    intro q idx _ _ _ _ _ hbad
    obtain ⟨p, hp, _⟩ := hbad
    cases hp
  | cons phead rest ih =>
    obtain ⟨o, ins⟩ := phead
    intro q idx hqle hidxle hq hsorted hall hbad
    have hoge : idx ≤ o := (hall (o, ins) (List.mem_cons_self _ _)).1
    have hinsv : utf8Valid ins = true := (hall (o, ins) (List.mem_cons_self _ _)).2
    unfold sortedKeys at hsorted
    rw [List.pairwise_cons] at hsorted
    obtain ⟨hlt, hsorted2⟩ := hsorted
    rw [spliceGo_cons]
    obtain ⟨K, hK⟩ : ∃ K, ((ob.drop idx).take (o - idx)).length = K := ⟨_, rfl⟩
    rw [hK]
    have hKmin : K = min (o - idx) (ob.length - idx) := by
      rw [← hK, List.length_take, List.length_drop]
    have hKle : K ≤ o - idx := by
      rw [hKmin]; exact min_le_left _ _
    have hKleL : K ≤ ob.length - idx := by
      rw [hKmin]; exact min_le_right _ _
    have hgg : (ob.drop idx).take (o - idx) = (ob.drop idx).take K := by
      have h5 := take_min_length (ob.drop idx) (o - idx)
      rw [List.length_drop] at h5
      rw [hKmin, h5]
    by_cases hbadhead : ins ≠ [] ∧ utf8Valid (ob.take o) = false
    · -- the head insertion itself is nonempty at a splitting offset
      obtain ⟨hne, hoinv⟩ := hbadhead
      have holeL : o ≤ ob.length := by
        by_contra hc
        push_neg at hc
        rw [List.take_of_length_le (by omega)] at hoinv
        rw [hob] at hoinv
        cases hoinv
      obtain ⟨s0, s1, hs⟩ : ∃ s0 s1, ins = s0 :: s1 := by
        cases ins with
        | nil => exact absurd rfl hne
        | cons a b => exact ⟨a, b, rfl⟩
      have hpref : utf8Valid ((ob.drop q).take (o - q)) = false := by
        by_contra hc
        rw [Bool.not_eq_false] at hc
        have h2 : utf8Valid (ob.take q ++ (ob.drop q).take (o - q)) = true := by
          rw [utf8Valid_append _ _ hq, hc]
        have h3 : ob.take q ++ (ob.drop q).take (o - q) = ob.take o := by
          have h4 : q + (o - q) = o := by omega
          conv_rhs => rw [← h4]
          rw [List.take_add]
        rw [h3] at h2
        rw [h2] at hoinv
        cases hoinv
      have hs0 : isCont s0 = false := by
        apply utf8Valid_head_not_cont s0 s1
        rw [hs] at hinsv
        exact hinsv
      have hlist : (ob.drop q).take (idx - q) ++
          ((ob.drop idx).take (o - idx) ++ ins ++ spliceGo ob (idx + K) rest) =
          (ob.drop q).take (o - q) ++
            (s0 :: (s1 ++ spliceGo ob (idx + K) rest)) := by
        rw [hs]
        have hm : (ob.drop q).take (idx - q) ++ (ob.drop idx).take (o - idx) =
            (ob.drop q).take (o - q) := by
          have h5 := slice_merge ob q idx (o - idx) hqle
          have h6 : (idx - q) + (o - idx) = o - q := by omega
          rw [h6] at h5
          exact h5
        rw [← hm]
        simp [List.append_assoc]
      rw [hlist]
      exact utf8Valid_extend_invalid _ s0 _ hpref hs0
    · -- the bad insertion is in the rest of the schedule
      obtain ⟨pb, hpb, hpbne, hpbinv⟩ := hbad
      have hpbrest : pb ∈ rest := by
        rcases List.mem_cons.mp hpb with h | h
        · exfalso
          apply hbadhead
          constructor
          · rw [h] at hpbne; exact hpbne
          · rw [h] at hpbinv; exact hpbinv
        · exact h
      have hbadrest : ∃ p ∈ rest, p.2 ≠ [] ∧ utf8Valid (ob.take p.1) = false :=
        ⟨pb, hpbrest, hpbne, hpbinv⟩
      have hrest : ∀ p ∈ rest, (idx + K) ≤ p.1 ∧ utf8Valid p.2 = true := by
        intro p hp
        refine ⟨?_, (hall p (List.mem_cons_of_mem _ hp)).2⟩
        have hgt : o < p.1 := hlt p hp
        omega
      have hidx2le : idx + K ≤ ob.length := by omega
      rcases hins_shape : ins with _ | ⟨s0, s1⟩
      · -- empty insertion at the head: merge the pending origin slice and recurse
        have hlist2 : (ob.drop q).take (idx - q) ++
            ((ob.drop idx).take (o - idx) ++ [] ++ spliceGo ob (idx + K) rest) =
            (ob.drop q).take ((idx + K) - q) ++ spliceGo ob (idx + K) rest := by
          have hm := slice_merge ob q idx K hqle
          have h6 : (idx - q) + K = (idx + K) - q := by omega
          rw [h6] at hm
          rw [hgg, List.append_nil, ← List.append_assoc, hm]
        rw [hlist2]
        exact ih q (idx + K) (by omega) hidx2le hq hsorted2 hrest hbadrest
      · -- nonempty insertion at a boundary: close the checkpoint and recurse
        have hne2 : ins ≠ [] := by rw [hins_shape]; simp
        have hvo : utf8Valid (ob.take o) = true := by
          by_contra hc
          rw [Bool.not_eq_true] at hc
          exact hbadhead ⟨hne2, hc⟩
        have hidx2v : utf8Valid (ob.take (idx + K)) = true := by
          by_cases h2 : o ≤ ob.length
          · have heq : idx + K = o := by
              have hm : K = o - idx := by
                rw [hKmin, min_eq_left (by omega)]
              omega
            rw [heq]
            exact hvo
          · have heq : idx + K = ob.length := by
              have hm : K = ob.length - idx := by
                rw [hKmin, min_eq_right (by omega)]
              omega
            rw [heq, List.take_length]
            exact hob
        have hslicev : utf8Valid ((ob.drop q).take ((idx + K) - q)) = true := by
          have hsp : ob.take (idx + K) = ob.take q ++ (ob.drop q).take ((idx + K) - q) := by
            have h4 : q + ((idx + K) - q) = idx + K := by omega
            conv_lhs => rw [← h4]
            rw [List.take_add]
          rw [hsp, utf8Valid_append _ _ hq] at hidx2v
          exact hidx2v
        have hlist3 : (ob.drop q).take (idx - q) ++
            ((ob.drop idx).take (o - idx) ++ ins ++ spliceGo ob (idx + K) rest) =
            (ob.drop q).take ((idx + K) - q) ++ (ins ++ spliceGo ob (idx + K) rest) := by
          have hm := slice_merge ob q idx K hqle
          have h6 : (idx - q) + K = (idx + K) - q := by omega
          rw [h6] at hm
          rw [hgg, ← List.append_assoc, ← List.append_assoc, hm, List.append_assoc]
        rw [← hins_shape, hlist3, utf8Valid_append _ _ hslicev,
          utf8Valid_append _ _ hinsv]
        have hih := ih (idx + K) (idx + K) (le_refl _) hidx2le hidx2v hsorted2 hrest hbadrest
        simpa using hih

/-- Claim C9 counterexample: the claim as stated asserts that any insertion
whose offset splits a multi-byte codepoint of the origin makes the final
text validation fail.  Inserting the empty string at offset 1 of origin
`"¢"` (bytes `[C2, A2]`) splits the two-byte codepoint — the bytes before
offset 1 are not well-formed UTF-8 — yet the spliced output is the
unchanged origin, the validation succeeds and `execute` returns `Ok`,
not the not-text error. -/
theorem c9_counterexample :
    utf8Valid ([0xC2, 0xA2].take 1) = false ∧
    utf8Valid [0xC2, 0xA2] = true ∧
    stringExecute [0xC2, 0xA2] [(1, [])] = Except.ok [0xC2, 0xA2] :=
  ⟨by decide, by decide, rfl⟩

/-- Claim C9 (amended): for every text origin and insertion list, if the
effective schedule (the last registration at each offset) contains a
nonempty insertion at an offset that splits a multi-byte codepoint of the
origin — the bytes before the offset are not well-formed UTF-8 — then the
byte-level splice succeeds, but the adapter's final text validation fails
and `execute` returns the not-text (UTF-8) error rather than an I/O
error. -/
theorem c9_split_codepoint (ob : List Nat) (ins : List (Nat × List Nat))
    (hob : utf8Valid ob = true)
    (hvalid : ∀ p ∈ ins, utf8Valid p.2 = true)
    (hbad : ∃ p ∈ buildSchedule ins, p.2 ≠ [] ∧ utf8Valid (ob.take p.1) = false) :
    (runBytes ob ins).1 = none ∧
    stringExecute ob ins = Except.error StringError.utf8Error := by
  have hrun := runBytes_eq ob ins
  have hall : ∀ p ∈ buildSchedule ins, 0 ≤ p.1 ∧ utf8Valid p.2 = true :=
    fun p hp => ⟨Nat.zero_le _, hvalid p (buildSchedule_mem _ _ hp)⟩
  have hinv : utf8Valid (spliceGo ob 0 (buildSchedule ins)) = false := by
    have h := spliceGo_utf8_invalid ob hob (buildSchedule ins) 0 0 (le_refl _)
      (Nat.zero_le _) (by rw [List.take_zero]; rfl) (buildSchedule_sorted ins)
      hall hbad
    simpa using h
  constructor
  · rw [hrun]
  · have hse : stringExecute ob ins =
        (if utf8Valid (spliceGo ob 0 (buildSchedule ins)) then
          Except.ok (spliceGo ob 0 (buildSchedule ins))
        else Except.error StringError.utf8Error) := by
      unfold stringExecute
      rw [hrun]
    rw [hse, hinv]
    simp

/-- Witness for C9: origin `"¢"` with the nonempty insertion `"A"` at the
splitting offset 1. -/
theorem c9_split_codepoint_witness :
    utf8Valid [0xC2, 0xA2] = true ∧
    (∀ p ∈ ([(1, [65])] : List (Nat × List Nat)), utf8Valid p.2 = true) ∧
    (∃ p ∈ buildSchedule ([(1, [65])] : List (Nat × List Nat)),
      p.2 ≠ [] ∧ utf8Valid ([0xC2, 0xA2].take p.1) = false) ∧
    ((runBytes [0xC2, 0xA2] [(1, [65])]).1 = none ∧
      stringExecute [0xC2, 0xA2] [(1, [65])] = Except.error StringError.utf8Error) :=
  ⟨by decide, by decide, by decide,
    c9_split_codepoint [0xC2, 0xA2] [(1, [65])] (by decide) (by decide) (by decide)⟩

/-- Claim C10: `StringInserter::execute` never returns the `IoError`
variant: the origin is an in-memory byte slice and the sink an in-memory
vector whose reads and writes cannot fail, so the byte-level splice always
succeeds and the result is either `Ok` or the UTF-8 validation error. -/
theorem c10_no_io_error (ob : List Nat) (ins : List (Nat × List Nat)) :
    (∃ out, stringExecute ob ins = Except.ok out) ∨
      stringExecute ob ins = Except.error StringError.utf8Error := by
  have hrun := runBytes_eq ob ins
  have hse : stringExecute ob ins =
      (if utf8Valid (spliceGo ob 0 (buildSchedule ins)) then
        Except.ok (spliceGo ob 0 (buildSchedule ins))
      else Except.error StringError.utf8Error) := by
    unfold stringExecute
    rw [hrun]
  rw [hse]
  by_cases h : utf8Valid (spliceGo ob 0 (buildSchedule ins))
  · left
    exact ⟨spliceGo ob 0 (buildSchedule ins), by rw [if_pos h]⟩
  · right
    rw [if_neg h]
